import Mathlib

/-!
Verification of cyclone.js (src/cyclone.js), a structured-clone style deep
cloning engine for JavaScript values.

Shallow embedding notes.
JavaScript values are modelled as `Val`: either a primitive (`Prim`) or a
reference (`Val.ref a`) into a heap (`Heap`, a list of `Obj` indexed by
address).  Object field lists model the own enumerable properties in
`for..in` order.  Function values are heap objects (`Obj.funcObj`) so that
`typeof` distinguishes them from plain objects, as in JavaScript; their
behaviour when called is given by a function table `FunTable` mapping the
function identifier to a pure Lean function of the heap and the argument
(custom clone procedures are thus modelled as pure: they may inspect the
heap but not mutate it).  Machine numbers are modelled as `Int`
(no floating point is relevant to any claim).  Fallible operations return
`Except CloneErr`; `CloneErr.typeError` models a thrown `TypeError`
(the "UnsupportedTypeError" of the specification), and `CloneErr.outOfFuel`
is the fuel-exhaustion artifact of the embedding (all theorems are stated
about runs that produce a result, or supply ample fuel).
-/

namespace Cyclone

/-- Primitive (non-object) JavaScript values.  `vNull` is `null`,
`vUndefined` is `undefined`. -/
inductive Prim where
  | vNull
  | vUndefined
  | vBool (b : Bool)
  | vNum (n : Int)
  | vStr (s : String)
deriving DecidableEq, Repr

/-- A JavaScript value: a primitive or a reference to a heap object. -/
inductive Val where
  | prim (p : Prim)
  | ref (a : Nat)
deriving DecidableEq, Repr

/-- Heap objects, classified by the runtime tag that
`Object.prototype.toString` would report (the tag drives the `switch` in
`_handleObjectClone`).  Collections (`arr`, `plain`) carry their own
enumerable properties as an ordered field list; `plain` also carries its
prototype, modelled as an opaque tag.  `funcObj` is a callable object
(`typeof` gives `"function"`); `html` is an HTML element with opaque
shallow content `data` and a flag telling whether it has a callable
`cloneNode`; `exotic` is any object with an unrecognized tag. -/
inductive Obj where
  | boxedString (s : String)
  | boxedNumber (n : Int)
  | boxedBoolean (b : Bool)
  | date (t : Int)
  | regexp (source : String) (global ignoreCase multiline otherFlags : Bool)
  | arr (length : Nat) (fields : List (String × Val))
  | plain (proto : Nat) (fields : List (String × Val))
  | funcObj (id : Nat) (fields : List (String × Val))
  | html (name : String) (data : Nat) (hasCloneNode : Bool)
  | exotic (tag : String)
deriving DecidableEq, Repr

/-- The heap: address `a` denotes the object at index `a`. -/
abbrev Heap := List Obj

/-- Own enumerable properties of an object (empty for the value-like kinds). -/
def Obj.fields : Obj → List (String × Val)
  | .arr _ fs => fs
  | .plain _ fs => fs
  | .funcObj _ fs => fs
  | _ => []

/-- The string `Object.prototype.toString` reports for an object. -/
def Obj.obType : Obj → String
  | .boxedString _ => "[object String]"
  | .boxedNumber _ => "[object Number]"
  | .boxedBoolean _ => "[object Boolean]"
  | .date _ => "[object Date]"
  | .regexp _ _ _ _ _ => "[object RegExp]"
  | .arr _ _ => "[object Array]"
  | .plain _ _ => "[object Object]"
  | .funcObj _ _ => "[object Function]"
  | .html name _ _ => "[object HTML" ++ name ++ "Element]"
  | .exotic tag => tag

/-- JavaScript `typeof`.  Note the JavaScript quirks: `typeof null` is
`"object"`, and callables report `"function"` (heap lookup is needed to
tell a callable object from a plain one). -/
def jsTypeof (H : Heap) : Val → String
  | .prim .vNull => "object"
  | .prim .vUndefined => "undefined"
  | .prim (.vBool _) => "boolean"
  | .prim (.vNum _) => "number"
  | .prim (.vStr _) => "string"
  | .ref a =>
    match H[a]? with
    | some (.funcObj _ _) => "function"
    | _ => "object"

/-- JavaScript truthiness of a value (used for `if (proc.detect(obj))`). -/
def truthy : Val → Bool
  | .prim .vNull => false
  | .prim .vUndefined => false
  | .prim (.vBool b) => b
  | .prim (.vNum n) => n != 0
  | .prim (.vStr s) => s != ""
  | .ref _ => true

/-- Property read with the `undefined` default, on an object already in hand. -/
def Obj.getFieldD (o : Obj) (k : String) : Val :=
  match o.fields.lookup k with
  | some v => v
  | none => Val.prim Prim.vUndefined

/-- JavaScript property read `v[k]`.  Reading a property of `null` or
`undefined` throws a `TypeError`; reading a missing property of an object
yields `undefined`; primitives get boxed and (for the properties relevant
here) also yield `undefined`. -/
inductive CloneErr where
  | typeError (msg : String)
  | dangling
  | outOfFuel
deriving DecidableEq, Repr

def jsGetProp (H : Heap) (v : Val) (k : String) : Except CloneErr Val :=
  match v with
  | .prim .vNull => .error (.typeError ("Cannot read properties of null (reading " ++ k ++ ")"))
  | .prim .vUndefined => .error (.typeError ("Cannot read properties of undefined (reading " ++ k ++ ")"))
  | .prim _ => .ok (.prim .vUndefined)
  | .ref a =>
    match H[a]? with
    | none => .error .dangling
    | some o => .ok (o.getFieldD k)

/-- Semantics of calling a function value: the table maps a function
identifier to its (pure) behaviour. -/
abbrev FunTable := Nat → Heap → Val → Val

/-- JavaScript call `f(arg)`: throws a `TypeError` unless `f` is callable. -/
def jsCall (σ : FunTable) (H : Heap) (f arg : Val) : Except CloneErr Val :=
  match f with
  | .ref a =>
    match H[a]? with
    | some (.funcObj id _) => .ok (σ id H arg)
    | _ => .error (.typeError ("value is not a function"))
  | _ => .error (.typeError ("value is not a function"))

/-- Transfer map: the pair of parallel `inputs` and `outputs` sequences of
`TransferMap` in the source (inputs are object references, i.e. addresses). -/
structure TransferMap where
  inputs : List Nat
  outputs : List Val
deriving DecidableEq, Repr

/-- `TransferMap.prototype.set`: push the pair only when the input is not
already present (`indexOf === -1`). -/
def TransferMap.set (m : TransferMap) (input : Nat) (output : Val) : TransferMap :=
  if m.inputs.contains input then m
  else { inputs := m.inputs ++ [input], outputs := m.outputs ++ [output] }

/-- `TransferMap.prototype.get`: `indexOf` the input and return the parallel
output, or `null` when absent (in the source, `output` starts as `null` and
is only assigned when `idx > -1`). -/
def TransferMap.get (m : TransferMap) (input : Nat) : Val :=
  let idx := m.inputs.indexOf input
  if idx < m.inputs.length then
    m.outputs.getD idx (Val.prim Prim.vUndefined)
  else
    Val.prim Prim.vNull

/-- The per-call cloning state: the heap together with the transfer map of
the clone call in progress. -/
structure St where
  heap : Heap
  tMap : TransferMap
deriving DecidableEq, Repr

/-- Evaluation of `proc.detect(obj)` coerced to a boolean, as used by the
condition `if (proc.detect(obj))`. -/
def procDetects (σ : FunTable) (H : Heap) (proc obj : Val) : Except CloneErr Bool :=
  match jsGetProp H proc "detect" with
  | .error e => .error e
  | .ok d =>
    match jsCall σ H d obj with
    | .error e => .error e
    | .ok r => .ok (truthy r)

/-- Evaluation of `proc.copy(obj)`. -/
def procCopy (σ : FunTable) (H : Heap) (proc obj : Val) : Except CloneErr Val :=
  match jsGetProp H proc "copy" with
  | .error e => .error e
  | .ok c => jsCall σ H c obj

/-- The `while (procIdx--)` loop of `_attemptCustomClone`: the registry is
scanned from the most recently pushed procedure (the end of the list)
backwards, and the loop breaks at the first procedure whose detector is
truthy, with `copy` set to that procedure's copy result.  `none` models the
`copy` variable never having been assigned.  (The `console.log` on each
iteration is ignored by the pure model.) -/
def _attemptCustomCloneAux (σ : FunTable) (H : Heap) (obj : Val) :
    List Val → Except CloneErr (Option Val)
  | [] => .ok none
  | proc :: rest =>
    match _attemptCustomCloneAux σ H obj rest with
    | .error e => .error e
    | .ok (some v) => .ok (some v)
    | .ok none =>
      match procDetects σ H proc obj with
      | .error e => .error e
      | .ok true =>
        match procCopy σ H proc obj with
        | .error e => .error e
        | .ok v => .ok (some v)
      | .ok false => .ok none

/-- `_attemptCustomClone(obj)`: returns the `copy` variable, which is
`undefined` when no detector matched (and also when a matching copy
returned `undefined`; the two cannot be told apart by the caller). -/
def _attemptCustomClone (σ : FunTable) (procs : List Val) (H : Heap) (obj : Val) :
    Except CloneErr Val :=
  match _attemptCustomCloneAux σ H obj procs with
  | .error e => .error e
  | .ok (some v) => .ok v
  | .ok none => .ok (.prim .vUndefined)

/-- `_handleRegExpClone(re)`: rebuild the regex from its source and a flags
string assembled by testing `re.global`, `re.ignoreCase` and `re.multiline`
in that order (characters `g`, `i`, `m`).  Any further flag of the input is
not tested and hence not carried over to the new regex. -/
def _handleRegExpClone (source : String) (global ignoreCase multiline : Bool) : Obj :=
  .regexp source global ignoreCase multiline false

/-- Flags string assembled by `_handleRegExpClone` before constructing the
new regex: single-character codes concatenated in the fixed order g, i, m. -/
def regExpFlagsString (global ignoreCase multiline : Bool) : String :=
  (if global then "g" else "") ++ ((if ignoreCase then "i" else "") ++ (if multiline then "m" else ""))

/-- The `switch (obType)` of `_handleObjectClone`: produce the output shell
for an object, together with the `isCollection` flag; unrecognized tags
throw (`html` objects without a callable `cloneNode` fall into the same
`throw`, and an `html` object with one is shallow-cloned by `cloneNode()`). -/
def cloneShell : Obj → Except CloneErr (Obj × Bool)
  | .boxedString s => .ok (.boxedString s, false)
  | .boxedNumber n => .ok (.boxedNumber n, false)
  | .boxedBoolean b => .ok (.boxedBoolean b, false)
  | .date t => .ok (.date t, false)
  | .regexp src g ic ml _ => .ok (_handleRegExpClone src g ic ml, false)
  | .arr len _ => .ok (.arr len [], true)
  | .plain proto _ => .ok (.plain proto [], true)
  | .html name data hasCloneNode =>
    if hasCloneNode then .ok (.html name data hasCloneNode, false)
    else .error (.typeError ("Don\x27t know how to clone object of type " ++ (Obj.html name data hasCloneNode).obType))
  | .funcObj id fs => .error (.typeError ("Don\x27t know how to clone object of type " ++ (Obj.funcObj id fs).obType))
  | .exotic tag => .error (.typeError ("Don\x27t know how to clone object of type " ++ tag))

/-- Assignment `output[prop] = value` on a field list: overwrite an existing
key in place, otherwise append. -/
def assignField : List (String × Val) → String → Val → List (String × Val)
  | [], k, v => [(k, v)]
  | (k0, v0) :: rest, k, v =>
    if k0 = k then (k, v) :: rest else (k0, v0) :: assignField rest k v

/-- Assignment `output[prop] = value` on an object (only collections ever
receive assignments in the algorithm). -/
def Obj.setField : Obj → String → Val → Obj
  | .arr len fs, k, v => .arr len (assignField fs k v)
  | .plain proto fs, k, v => .plain proto (assignField fs k v)
  | .funcObj id fs, k, v => .funcObj id (assignField fs k v)
  | o, _, _ => o

/-- Assignment `output[prop] = value` at a heap address. -/
def heapSetField (H : Heap) (a : Nat) (k : String) (v : Val) : Heap :=
  match H[a]? with
  | none => H
  | some o => H.set a (o.setField k v)

mutual

/-- `_iSClone(input, tMap)`: `null` is returned as-is; values whose `typeof`
is `"object"` go to `_handleObjectClone`; everything else (primitives and
callables) is returned unchanged. -/
def _iSClone (σ : FunTable) (procs : List Val) :
    Nat → Val → St → Except CloneErr (Val × St)
  | 0, _, _ => .error .outOfFuel
  | fuel + 1, input, st =>
    if input = .prim .vNull then .ok (input, st)
    else if jsTypeof st.heap input = "object" then
      match input with
      | .ref a => _handleObjectClone σ procs fuel a st
      | .prim _ => .ok (input, st)
    else .ok (input, st)

/-- `_handleObjectClone(input, tMap)`: check the transfer map, then the
custom procedures, then build the shell via the tag switch, register the
(input, output) pair, and recursively populate collections. -/
def _handleObjectClone (σ : FunTable) (procs : List Val) :
    Nat → Nat → St → Except CloneErr (Val × St)
  | 0, _, _ => .error .outOfFuel
  | fuel + 1, a, st =>
    let _selfRef := st.tMap.get a
    if _selfRef ≠ .prim .vNull then .ok (_selfRef, st)
    else
      match _attemptCustomClone σ procs st.heap (.ref a) with
      | .error e => .error e
      | .ok _cloneAttempt =>
        if jsTypeof st.heap _cloneAttempt ≠ "undefined" then .ok (_cloneAttempt, st)
        else
          match st.heap[a]? with
          | none => .error .dangling
          | some obj =>
            match cloneShell obj with
            | .error e => .error e
            | .ok (shell, isCollection) =>
              let out := st.heap.length
              let heap1 := st.heap ++ [shell]
              let tMap1 := st.tMap.set a (.ref out)
              if isCollection then
                match _handleCollectionClone σ procs fuel obj.fields out ⟨heap1, tMap1⟩ with
                | .error e => .error e
                | .ok st2 => .ok (.ref out, st2)
              else .ok (.ref out, ⟨heap1, tMap1⟩)

/-- `_handleCollectionClone(input, output, tMap)`: the `for..in` loop with
the `hasOwnProperty` guard, modelled by iterating the own enumerable field
list of the input; each member is cloned by `_iSClone` and assigned onto
the output at the same key. -/
def _handleCollectionClone (σ : FunTable) (procs : List Val) :
    Nat → List (String × Val) → Nat → St → Except CloneErr St
  | 0, _, _, _ => .error .outOfFuel
  | _ + 1, [], _, st => .ok st
  | fuel + 1, (k, v) :: rest, outAddr, st =>
    match _iSClone σ procs fuel v st with
    | .error e => .error e
    | .ok (v2, st2) =>
      _handleCollectionClone σ procs fuel rest outAddr
        ⟨heapSetField st2.heap outAddr k v2, st2.tMap⟩

end

/-- The empty transfer map a top-level `clone` call starts from. -/
def TransferMap.empty : TransferMap := { inputs := [], outputs := [] }

namespace CY

/-- `CY.clone(input)`: run `_iSClone` with a fresh `TransferMap`. -/
def clone (σ : FunTable) (procs : List Val) (fuel : Nat) (input : Val) (heap : Heap) :
    Except CloneErr (Val × St) :=
  _iSClone σ procs fuel input ⟨heap, TransferMap.empty⟩

/-- `CY.defineCloneProcedure(procObj)`: validate
`typeof procObj === "object" && typeof procObj.detect === "function" &&
typeof procObj.copy === "function"` (with JavaScript short-circuiting, so
the property reads happen only when the `typeof` test passed — and throw
when `procObj` is `null`, whose `typeof` is `"object"`); on success push
the procedure and return `true`, otherwise return `false`. -/
def defineCloneProcedure (H : Heap) (procs : List Val) (procObj : Val) :
    Except CloneErr (Bool × List Val) :=
  if jsTypeof H procObj = "object" then
    match jsGetProp H procObj "detect" with
    | .error e => .error e
    | .ok d =>
      if jsTypeof H d = "function" then
        match jsGetProp H procObj "copy" with
        | .error e => .error e
        | .ok c =>
          if jsTypeof H c = "function" then .ok (true, procs ++ [procObj])
          else .ok (false, procs)
      else .ok (false, procs)
  else .ok (false, procs)

/-- `CY.clearCustomCloneProcedures()`: reset the registry to empty. -/
def clearCustomCloneProcedures : List Val := []

end CY

end Cyclone

deriving instance DecidableEq for Except

namespace Cyclone

/-! Helper lemmas and concrete instances used by the claim theorems. -/

/-- Function table all of whose functions return `undefined`. -/
def σ0 : FunTable := fun _ _ _ => .prim .vUndefined

theorem tmGet_empty (a : Nat) : TransferMap.empty.get a = .prim .vNull := rfl

theorem attemptCustomClone_nil (σ : FunTable) (H : Heap) (o : Val) :
    _attemptCustomClone σ [] H o = .ok (.prim .vUndefined) := rfl

theorem attemptAux_none (σ : FunTable) (H : Heap) (obj : Val) :
    ∀ l : List Val, (∀ q ∈ l, procDetects σ H q obj = .ok false) →
      _attemptCustomCloneAux σ H obj l = .ok none := by
  intro l
  induction l with
  | nil => intro _; rfl
  | cons q rest ih =>
    intro h
    have hrest := ih (fun r hr => h r (List.mem_cons_of_mem q hr))
    have hq := h q (List.mem_cons_self q rest)
    simp only [_attemptCustomCloneAux, hrest, hq]

end Cyclone

namespace Cyclone

/-- Claim C1, counterexample: cloning a callable value does not raise; it
returns the very same function reference, and cloning an array holding a
callable also succeeds (the member is passed through by reference). -/
theorem claim_C1_counterexample :
    CY.clone σ0 [] 2 (.ref 0) [.funcObj 0 []] =
      .ok (.ref 0, ⟨[.funcObj 0 []], TransferMap.empty⟩) ∧
    CY.clone σ0 [] 6 (.ref 1) [.funcObj 7 [], .arr 1 [("0", .ref 0)]] =
      .ok (.ref 2, ⟨[.funcObj 7 [], .arr 1 [("0", .ref 0)], .arr 1 [("0", .ref 0)]],
        ⟨[1], [.ref 2]⟩⟩) := by
  constructor <;> decide

/-- Claim C1, amended: a callable value is not cloned and does not raise:
`_iSClone` returns the same function reference unchanged (its `typeof` is
`"function"`, not `"object"`), both at top level and for members; the
`TypeError` of the tag switch is raised only for `typeof`-`"object"` values
whose tag is unrecognized (here: an `exotic` object, with the registry
empty). -/
theorem claim_C1_amended :
    (∀ (σ : FunTable) (procs : List Val) (fuel : Nat) (st : St) (a id : Nat)
      (fs : List (String × Val)), st.heap[a]? = some (.funcObj id fs) →
        _iSClone σ procs (fuel + 1) (.ref a) st = .ok (.ref a, st)) ∧
    (∀ (σ : FunTable) (fuel : Nat) (st : St) (a : Nat) (tag : String),
      st.heap[a]? = some (.exotic tag) → st.tMap.get a = .prim .vNull →
        _handleObjectClone σ [] (fuel + 1) a st =
          .error (.typeError ("Don\x27t know how to clone object of type " ++ tag))) := by
  constructor
  · intro σ procs fuel st a id fs h
    simp [_iSClone, jsTypeof, h]
  · intro σ fuel st a tag hheap hget
    simp [_handleObjectClone, hget, attemptCustomClone_nil, jsTypeof, hheap, cloneShell]

/-- Claim C1, witness for the amended theorem at concrete inputs. -/
theorem claim_C1_amended_witness :
    _iSClone σ0 [] 3 (.ref 0) ⟨[.funcObj 4 [("k", .prim (.vNum 1))]], TransferMap.empty⟩ =
      .ok (.ref 0, ⟨[.funcObj 4 [("k", .prim (.vNum 1))]], TransferMap.empty⟩) ∧
    _handleObjectClone σ0 [] 3 0 ⟨[.exotic "[object Math]"], TransferMap.empty⟩ =
      .error (.typeError ("Don\x27t know how to clone object of type [object Math]")) :=
  ⟨claim_C1_amended.1 σ0 [] 2 _ 0 4 [("k", .prim (.vNum 1))] (by decide),
   claim_C1_amended.2 σ0 2 _ 0 "[object Math]" (by decide) (by decide)⟩

/-- Function table for the C4 scenario: function 0 is a detector that
always matches; function 1 is a copier returning `undefined`. -/
def σC4 : FunTable := fun id _ _ =>
  if id = 0 then .prim (.vBool true) else .prim .vUndefined

/-- Function table where the matching copier returns `null` instead. -/
def σC4n : FunTable := fun id _ _ =>
  if id = 0 then .prim (.vBool true) else .prim .vNull

/-- Heap for the C4 scenario: a registered procedure object (address 2)
whose detector (address 0) matches everything and whose copier (address 1)
returns `undefined`, plus a plain record (address 3) to clone. -/
def heapC4 : Heap :=
  [.funcObj 0 [], .funcObj 1 [], .plain 0 [("detect", .ref 0), ("copy", .ref 1)], .plain 0 []]

/-- Claim C4, counterexample: the registered detector matches the record at
address 3 and its copy function runs and returns `undefined` (first
conjunct: the scan result is `some undefined`), yet that copy result is not
used as the clone output: built-in handling proceeds and produces a fresh
plain object (second conjunct), because the no-match sentinel is itself
`undefined` and so cannot be distinguished from this copy result. -/
theorem claim_C4_counterexample :
    _attemptCustomCloneAux σC4 heapC4 (.ref 3) [.ref 2] = .ok (some (.prim .vUndefined)) ∧
    _handleObjectClone σC4 [.ref 2] 5 3 ⟨heapC4, TransferMap.empty⟩ =
      .ok (.ref 4, ⟨heapC4 ++ [.plain 0 []], ⟨[3], [.ref 4]⟩⟩) := by
  constructor <;> decide

/-- Claim C4, amended: a matching procedure's copy result is used as the
clone output and short-circuits built-in handling only when its `typeof` is
not `"undefined"` (in particular a `null` copy result is used); an
`undefined` copy result coincides with the no-match sentinel, so the
sentinel is produced exactly when no detector matches or when the first
matching copy returns `undefined` — and in that case built-in handling
proceeds (shown for a date object). -/
theorem claim_C4_amended :
    (∀ (σ : FunTable) (procs : List Val) (fuel : Nat) (st : St) (a : Nat) (v : Val),
      st.tMap.get a = .prim .vNull →
      _attemptCustomClone σ procs st.heap (.ref a) = .ok v →
      jsTypeof st.heap v ≠ "undefined" →
        _handleObjectClone σ procs (fuel + 1) a st = .ok (v, st)) ∧
    (∀ (σ : FunTable) (procs : List Val) (H : Heap) (o : Val),
      _attemptCustomClone σ procs H o = .ok (.prim .vUndefined) ↔
        (_attemptCustomCloneAux σ H o procs = .ok none ∨
         _attemptCustomCloneAux σ H o procs = .ok (some (.prim .vUndefined)))) ∧
    (∀ (σ : FunTable) (procs : List Val) (fuel : Nat) (st : St) (a : Nat) (t : Int),
      st.tMap.get a = .prim .vNull →
      _attemptCustomClone σ procs st.heap (.ref a) = .ok (.prim .vUndefined) →
      st.heap[a]? = some (.date t) →
        _handleObjectClone σ procs (fuel + 1) a st =
          .ok (.ref st.heap.length,
            ⟨st.heap ++ [.date t], st.tMap.set a (.ref st.heap.length)⟩)) := by
  refine ⟨?_, ?_, ?_⟩
  · intro σ procs fuel st a v hget hca hty
    simp [_handleObjectClone, hget, hca, hty]
  · intro σ procs H o
    unfold _attemptCustomClone
    rcases h : _attemptCustomCloneAux σ H o procs with e | ov
    · simp
    · rcases ov with _ | v <;> simp
  · intro σ procs fuel st a t hget hca hheap
    simp [_handleObjectClone, hget, hca, jsTypeof, hheap, cloneShell]

/-- Claim C4, witness for the amended theorem: a copy result of `null` is
used as the clone output (first), the sentinel characterization at a
concrete no-match registry (second), and built-in handling of a date in the
presence of a matching-but-`undefined` copier (third). -/
theorem claim_C4_amended_witness :
    _handleObjectClone σC4n [.ref 2] 3 3 ⟨heapC4, TransferMap.empty⟩ =
      .ok (.prim .vNull, ⟨heapC4, TransferMap.empty⟩) ∧
    (_attemptCustomClone σ0 [] [] (.prim (.vNum 1)) = .ok (.prim .vUndefined) ↔
      (_attemptCustomCloneAux σ0 [] (.prim (.vNum 1)) [] = .ok none ∨
       _attemptCustomCloneAux σ0 [] (.prim (.vNum 1)) [] = .ok (some (.prim .vUndefined)))) ∧
    _handleObjectClone σC4 [.ref 2] 3 4 ⟨heapC4 ++ [.date 77], TransferMap.empty⟩ =
      .ok (.ref 5, ⟨(heapC4 ++ [.date 77]) ++ [.date 77],
        TransferMap.empty.set 4 (.ref 5)⟩) :=
  ⟨claim_C4_amended.1 σC4n [.ref 2] 2 _ 3 (.prim .vNull) (by decide) (by decide) (by decide),
   claim_C4_amended.2.1 σ0 [] [] (.prim (.vNum 1)),
   claim_C4_amended.2.2 σC4 [.ref 2] 2 _ 4 77 (by decide) (by decide) (by decide)⟩

/-- Claim C5, counterexample: `defineCloneProcedure(null)` throws a
`TypeError` instead of returning `false`, because `typeof null` is
`"object"` and the subsequent `procObj.detect` property read fails. -/
theorem claim_C5_counterexample :
    CY.defineCloneProcedure [] [] (.prim .vNull) =
      .error (.typeError ("Cannot read properties of null (reading detect)")) := by
  decide

/-- Claim C5, amended: for every argument whose `typeof` is not `"object"`
registration returns `false` without throwing; for every non-null object
argument missing a function-valued `detect`, or having one but missing a
function-valued `copy`, registration returns `false` without throwing; for
every non-callable object argument with both, it appends the procedure and
returns `true`; but for `null` itself the validation throws a `TypeError`
(`typeof null` is `"object"`, and the property read on `null` fails). -/
theorem claim_C5_amended :
    (∀ (H : Heap) (procs : List Val) (v : Val), jsTypeof H v ≠ "object" →
      CY.defineCloneProcedure H procs v = .ok (false, procs)) ∧
    (∀ (H : Heap) (procs : List Val) (a : Nat) (o : Obj), H[a]? = some o →
      jsTypeof H (o.getFieldD "detect") ≠ "function" →
      CY.defineCloneProcedure H procs (.ref a) = .ok (false, procs)) ∧
    (∀ (H : Heap) (procs : List Val) (a : Nat) (o : Obj), H[a]? = some o →
      jsTypeof H (o.getFieldD "detect") = "function" →
      jsTypeof H (o.getFieldD "copy") ≠ "function" →
      CY.defineCloneProcedure H procs (.ref a) = .ok (false, procs)) ∧
    (∀ (H : Heap) (procs : List Val) (a : Nat) (o : Obj), H[a]? = some o →
      jsTypeof H (.ref a) = "object" →
      jsTypeof H (o.getFieldD "detect") = "function" →
      jsTypeof H (o.getFieldD "copy") = "function" →
      CY.defineCloneProcedure H procs (.ref a) = .ok (true, procs ++ [.ref a])) ∧
    (∀ (H : Heap) (procs : List Val),
      CY.defineCloneProcedure H procs (.prim .vNull) =
        .error (.typeError ("Cannot read properties of null (reading detect)"))) := by
  refine ⟨?_, ?_, ?_, ?_, ?_⟩
  · intro H procs v hty
    simp [CY.defineCloneProcedure, hty]
  · intro H procs a o hheap hdet
    by_cases hty : jsTypeof H (.ref a) = "object"
    · simp [CY.defineCloneProcedure, hty, jsGetProp, hheap, hdet]
    · simp [CY.defineCloneProcedure, hty]
  · intro H procs a o hheap hdet hcopy
    by_cases hty : jsTypeof H (.ref a) = "object"
    · simp [CY.defineCloneProcedure, hty, jsGetProp, hheap, hdet, hcopy]
    · simp [CY.defineCloneProcedure, hty]
  · intro H procs a o hheap hty hdet hcopy
    simp [CY.defineCloneProcedure, hty, jsGetProp, hheap, hdet, hcopy]
  · intro H procs
    simp [CY.defineCloneProcedure, jsTypeof, jsGetProp]

/-- Claim C5, witness for the amended theorem at concrete inputs: a number
argument, an object with no `detect`, an object whose `copy` is missing, a
valid procedure object, and the `null` argument. -/
theorem claim_C5_amended_witness :
    CY.defineCloneProcedure [] [] (.prim (.vNum 3)) = .ok (false, []) ∧
    CY.defineCloneProcedure [.plain 0 []] [] (.ref 0) = .ok (false, []) ∧
    CY.defineCloneProcedure [.funcObj 0 [], .plain 0 [("detect", .ref 0)]] [] (.ref 1) =
      .ok (false, []) ∧
    CY.defineCloneProcedure heapC4 [] (.ref 2) = .ok (true, [.ref 2]) ∧
    CY.defineCloneProcedure [] [] (.prim .vNull) =
      .error (.typeError ("Cannot read properties of null (reading detect)")) :=
  ⟨claim_C5_amended.1 [] [] (.prim (.vNum 3)) (by decide),
   claim_C5_amended.2.1 [.plain 0 []] [] 0 (.plain 0 []) (by decide) (by decide),
   claim_C5_amended.2.2.1 [.funcObj 0 [], .plain 0 [("detect", .ref 0)]] [] 1
     (.plain 0 [("detect", .ref 0)]) (by decide) (by decide) (by decide),
   claim_C5_amended.2.2.2.1 heapC4 [] 2 (.plain 0 [("detect", .ref 0), ("copy", .ref 1)])
     (by decide) (by decide) (by decide) (by decide),
   claim_C5_amended.2.2.2.2 [] []⟩

/-- Function table for the C6 scenario: functions 0 and 2 are detectors
that always match; function 1 copies to the string "first", function 3 to
the string "second". -/
def σC6 : FunTable := fun id _ _ =>
  if id = 0 then .prim (.vBool true)
  else if id = 1 then .prim (.vStr "first")
  else if id = 2 then .prim (.vBool true)
  else .prim (.vStr "second")

/-- Heap for the C6 scenario: two procedure objects (addresses 5 and 6)
whose detectors both match, and a plain record (address 4) to clone. -/
def heapC6 : Heap :=
  [.funcObj 0 [], .funcObj 1 [], .funcObj 2 [], .funcObj 3 [], .plain 0 [],
   .plain 0 [("detect", .ref 0), ("copy", .ref 1)],
   .plain 0 [("detect", .ref 2), ("copy", .ref 3)]]

/-- Claim C6: the registry is scanned from the most recently registered
procedure backwards, and the first procedure whose detector returns true is
the one whose copy function provides the result: whatever was registered
earlier (`pre`) is irrelevant once `p` matches and everything registered
after it (`post`) does not match. -/
theorem claim_C6 (σ : FunTable) (H : Heap) (obj : Val) (pre : List Val) (p : Val)
    (post : List Val) (hp : procDetects σ H p obj = .ok true)
    (hpost : ∀ q ∈ post, procDetects σ H q obj = .ok false) :
    _attemptCustomCloneAux σ H obj (pre ++ p :: post) =
      Except.map some (procCopy σ H p obj) := by
  induction pre with
  | nil =>
    have hnone := attemptAux_none σ H obj post hpost
    simp only [List.nil_append, _attemptCustomCloneAux, hnone, hp]
    rcases h : procCopy σ H p obj with e | v <;> simp [Except.map]
  | cons q pre ih =>
    simp only [List.cons_append, _attemptCustomCloneAux, List.append_eq]
    rw [ih]
    rcases h : procCopy σ H p obj with e | v <;> simp [Except.map]

/-- Claim C6, witness: two registered procedures both detect the target;
the scan yields the later registration's copy result. -/
theorem claim_C6_witness :
    _attemptCustomCloneAux σC6 heapC6 (.ref 4) ([.ref 5] ++ [(.ref 6 : Val)]) =
      Except.map some (procCopy σC6 heapC6 (.ref 6) (.ref 4)) ∧
    Except.map some (procCopy σC6 heapC6 (.ref 6) (.ref 4)) =
      .ok (some (.prim (.vStr "second"))) :=
  ⟨claim_C6 σC6 heapC6 (.ref 4) [.ref 5] (.ref 6) [] (by decide) (by decide), by decide⟩

/-- Claim C7: a regex-like object is reconstructed from its source and the
three tested flags (global, ignoreCase, multiline); any other flag of the
input is dropped (the fresh clone's `otherFlags` is `false` whatever the
input's was), while the source and the three tested flags are preserved. -/
theorem claim_C7 (σ : FunTable) (fuel : Nat) (heap : Heap) (a : Nat) (src : String)
    (g ic ml oth : Bool) (hheap : heap[a]? = some (.regexp src g ic ml oth)) :
    CY.clone σ [] (fuel + 2) (.ref a) heap =
      .ok (.ref heap.length,
        ⟨heap ++ [.regexp src g ic ml false], ⟨[a], [.ref heap.length]⟩⟩) := by
  have hset : TransferMap.empty.set a (.ref heap.length) = ⟨[a], [.ref heap.length]⟩ := rfl
  simp [CY.clone, _iSClone, jsTypeof, hheap, _handleObjectClone, tmGet_empty,
    attemptCustomClone_nil, cloneShell, _handleRegExpClone, hset]

/-- Claim C7, witness: cloning the model of `/ab/gi` with an extra
(untested) flag set: source and the g, i flags survive, the extra flag is
dropped. -/
theorem claim_C7_witness :
    CY.clone σ0 [] 5 (.ref 0) [.regexp "ab" true true false true] =
      .ok (.ref 1, ⟨[.regexp "ab" true true false true, .regexp "ab" true true false false],
        ⟨[0], [.ref 1]⟩⟩) :=
  claim_C7 σ0 3 [.regexp "ab" true true false true] 0 "ab" true true false true (by decide)

/-- Claim C8: the transfer map registers each input at most once:
re-registration is a no-op (both on an input already present and
immediately after a fresh registration), the parallel sequences keep equal
lengths, and a lookup returns the output that was registered first. -/
theorem claim_C8 :
    (∀ (m : TransferMap) (i : Nat) (o : Val), i ∈ m.inputs → m.set i o = m) ∧
    (∀ (m : TransferMap) (i : Nat) (o o2 : Val), (m.set i o).set i o2 = m.set i o) ∧
    (∀ (m : TransferMap) (i : Nat) (o : Val), m.inputs.length = m.outputs.length →
      (m.set i o).inputs.length = (m.set i o).outputs.length) ∧
    (∀ (m : TransferMap) (i : Nat) (o : Val), i ∉ m.inputs →
      m.inputs.length = m.outputs.length → (m.set i o).get i = o) := by
  refine ⟨?_, ?_, ?_, ?_⟩
  · intro m i o h
    simp [TransferMap.set, h]
  · intro m i o o2
    by_cases h : i ∈ m.inputs
    · simp [TransferMap.set, h]
    · have h1 : (m.set i o).inputs = m.inputs ++ [i] := by simp [TransferMap.set, h]
      have h2 : i ∈ (m.set i o).inputs := by simp [h1]
      simp [TransferMap.set, h2, h]
  · intro m i o hlen
    by_cases h : i ∈ m.inputs <;> simp [TransferMap.set, h, hlen]
  · intro m i o hmem hlen
    have h1 : (m.set i o).inputs = m.inputs ++ [i] := by simp [TransferMap.set, hmem]
    have h2 : (m.set i o).outputs = m.outputs ++ [o] := by simp [TransferMap.set, hmem]
    have hidx : (m.inputs ++ [i]).indexOf i = m.inputs.length := by
      rw [List.indexOf_append_of_not_mem hmem]
      simp
    have hcond : m.inputs.length < (m.inputs ++ [i]).length := by simp
    simp only [TransferMap.get, h1, h2, hidx]
    rw [if_pos hcond, hlen, List.getD_append_right _ _ _ _ (le_refl _)]
    simp

/-- Claim C8, witness: re-registration of input 0 is a no-op both ways,
lengths stay parallel, and the lookup returns the first-registered output. -/
theorem claim_C8_witness :
    ((⟨[5], [.ref 9]⟩ : TransferMap).set 5 (.ref 7) = ⟨[5], [.ref 9]⟩) ∧
    ((TransferMap.empty.set 1 (.ref 2)).set 1 (.ref 3) = TransferMap.empty.set 1 (.ref 2)) ∧
    ((TransferMap.empty.set 1 (.ref 2)).inputs.length =
      (TransferMap.empty.set 1 (.ref 2)).outputs.length) ∧
    (TransferMap.empty.set 1 (.ref 2)).get 1 = .ref 2 :=
  ⟨claim_C8.1 ⟨[5], [.ref 9]⟩ 5 (.ref 7) (by decide),
   claim_C8.2.1 TransferMap.empty 1 (.ref 2) (.ref 3),
   claim_C8.2.2.1 TransferMap.empty 1 (.ref 2) (by decide),
   claim_C8.2.2.2 TransferMap.empty 1 (.ref 2) (by decide) (by decide)⟩

/-- Claim C10: registration demands the argument itself be of object type:
any value whose `typeof` is not `"object"` is rejected with `false`; in
particular a callable object is rejected even when it carries
function-valued `detect` and `copy` properties. -/
theorem claim_C10 :
    (∀ (H : Heap) (procs : List Val) (v : Val), jsTypeof H v ≠ "object" →
      CY.defineCloneProcedure H procs v = .ok (false, procs)) ∧
    (∀ (H : Heap) (procs : List Val) (a id : Nat) (fs : List (String × Val)),
      H[a]? = some (.funcObj id fs) →
      CY.defineCloneProcedure H procs (.ref a) = .ok (false, procs)) := by
  constructor
  · intro H procs v hty
    simp [CY.defineCloneProcedure, hty]
  · intro H procs a id fs hheap
    have hty : jsTypeof H (.ref a) ≠ "object" := by
      simp [jsTypeof, hheap]
    simp [CY.defineCloneProcedure, hty]

/-- Claim C10, witness: a callable carrying function-valued `detect` and
`copy` members is still rejected (while a plain object with the same
members is accepted). -/
theorem claim_C10_witness :
    CY.defineCloneProcedure
      [.funcObj 0 [], .funcObj 1 [], .funcObj 2 [("detect", .ref 0), ("copy", .ref 1)]]
      [] (.ref 2) = .ok (false, []) :=
  claim_C10.2 [.funcObj 0 [], .funcObj 1 [], .funcObj 2 [("detect", .ref 0), ("copy", .ref 1)]]
    [] 2 2 [("detect", .ref 0), ("copy", .ref 1)] (by decide)

end Cyclone

namespace Cyclone

/-!
Machinery for the structural claims C2, C3 and C9: a parallel-list lookup
characterization of `TransferMap.get`, frame lemmas describing how the
cloning functions grow the state, a coherence invariant tying every
transfer-map entry to a structural correspondence between the original
object and its clone, and a depth-truncation notion of structural equality.
-/

/-- Parallel lookup on the two sequences: the first output whose input
matches, or `null`.  This is what `TransferMap.get` computes whenever the
two sequences have equal length. -/
def lookupPar : List Nat → List Val → Nat → Val
  | i :: is, o :: os, x => if i = x then o else lookupPar is os x
  | _, _, _ => .prim .vNull

theorem tmGet_eq_lookupPar (m : TransferMap) (h : m.inputs.length = m.outputs.length)
    (x : Nat) : m.get x = lookupPar m.inputs m.outputs x := by
  obtain ⟨is, os⟩ := m
  simp only at h
  induction is generalizing os with
  | nil => simp [TransferMap.get, lookupPar]
  | cons i is ih =>
    rcases os with _ | ⟨o, os⟩
    · simp at h
    · simp only [List.length_cons, Nat.succ_inj] at h
      by_cases hx : i = x
      · subst hx
        simp [TransferMap.get, lookupPar, List.indexOf_cons_self]
      · have hne : ¬ (i == x) = true := by simpa using hx
        have := ih os h
        simp only [TransferMap.get] at this ⊢
        simp only [List.indexOf_cons, hne, cond_false, lookupPar, hx, if_false]
        simp only [List.length_cons, Nat.succ_lt_succ_iff, List.getD_cons_succ]
        exact this

theorem lookupPar_not_mem {is : List Nat} {os : List Val} {x : Nat} (h : x ∉ is) :
    lookupPar is os x = .prim .vNull := by
  induction is generalizing os with
  | nil => cases os <;> rfl
  | cons i is ih =>
    rcases os with _ | ⟨o, os⟩
    · rfl
    · have h1 : i ≠ x := fun e => h (e ▸ List.mem_cons_self i is)
      have h2 : x ∉ is := fun e => h (List.mem_cons_of_mem i e)
      simp [lookupPar, h1, ih h2]

theorem lookupPar_ne_null_mem {is : List Nat} {os : List Val} {x : Nat}
    (h : lookupPar is os x ≠ .prim .vNull) : x ∈ is := by
  by_contra hx
  exact h (lookupPar_not_mem hx)

theorem lookupPar_mem_outputs {is : List Nat} {os : List Val} {x : Nat}
    (hmem : x ∈ is) (hlen : is.length = os.length) : lookupPar is os x ∈ os := by
  induction is generalizing os with
  | nil => cases hmem
  | cons i is ih =>
    rcases os with _ | ⟨o, os⟩
    · simp at hlen
    · simp only [List.length_cons, Nat.succ_inj] at hlen
      by_cases hx : i = x
      · simp [lookupPar, hx]
      · rcases List.mem_cons.1 hmem with h | h
        · exact absurd h.symm hx
        · simp only [lookupPar, hx, if_false]
          exact List.mem_cons_of_mem o (ih h hlen)

theorem lookupPar_append {is is' : List Nat} {os os' : List Val} {x : Nat}
    (hmem : x ∈ is) (hlen : is.length = os.length) :
    lookupPar (is ++ is') (os ++ os') x = lookupPar is os x := by
  induction is generalizing os with
  | nil => cases hmem
  | cons i is ih =>
    rcases os with _ | ⟨o, os⟩
    · simp at hlen
    · simp only [List.length_cons, Nat.succ_inj] at hlen
      by_cases hx : i = x
      · simp [lookupPar, hx]
      · rcases List.mem_cons.1 hmem with h | h
        · exact absurd h.symm hx
        · simp only [List.cons_append, lookupPar, hx, if_false]
          exact ih h hlen

theorem lookupPar_append_self {is : List Nat} {os : List Val} {x : Nat} {o : Val}
    (hmem : x ∉ is) (hlen : is.length = os.length) :
    lookupPar (is ++ [x]) (os ++ [o]) x = o := by
  induction is generalizing os with
  | nil =>
    rcases os with _ | ⟨o2, os⟩
    · simp [lookupPar]
    · simp at hlen
  | cons i is ih =>
    rcases os with _ | ⟨o2, os⟩
    · simp at hlen
    · simp only [List.length_cons, Nat.succ_inj] at hlen
      have h1 : i ≠ x := fun e => hmem (e ▸ List.mem_cons_self i is)
      have h2 : x ∉ is := fun e => hmem (List.mem_cons_of_mem i e)
      simp only [List.cons_append, lookupPar, h1, if_false]
      exact ih h2 hlen

theorem lookupPar_zip_mem {is : List Nat} {os : List Val} {x : Nat} {o : Val}
    (hmem : (x, o) ∈ List.zip is os) (hnd : is.Nodup) :
    lookupPar is os x = o := by
  induction is generalizing os with
  | nil => simp at hmem
  | cons i is ih =>
    rcases os with _ | ⟨o2, os⟩
    · simp at hmem
    · rcases List.mem_cons.1 hmem with h | h
      · obtain ⟨h1, h2⟩ := Prod.mk.injEq .. ▸ h
        injection h with h1 h2
        subst h1; subst h2
        simp [lookupPar]
      · have hx : i ≠ x := by
          intro e
          subst e
          exact (List.nodup_cons.1 hnd).1 (List.of_mem_zip h).1
        simp only [lookupPar, hx, if_false]
        exact ih h (List.nodup_cons.1 hnd).2

theorem mem_zip_lookupPar {is : List Nat} {os : List Val} {x : Nat}
    (hmem : x ∈ is) (hlen : is.length = os.length) :
    (x, lookupPar is os x) ∈ List.zip is os := by
  induction is generalizing os with
  | nil => cases hmem
  | cons i is ih =>
    rcases os with _ | ⟨o, os⟩
    · simp at hlen
    · simp only [List.length_cons, Nat.succ_inj] at hlen
      by_cases hx : i = x
      · subst hx
        simp [lookupPar]
      · rcases List.mem_cons.1 hmem with h | h
        · exact absurd h.symm hx
        · simp only [lookupPar, hx, if_false, List.zip_cons_cons]
          exact List.mem_cons_of_mem _ (ih h hlen)

theorem tmSet_not_mem {m : TransferMap} {a : Nat} {o : Val} (h : a ∉ m.inputs) :
    (m.set a o).inputs = m.inputs ++ [a] ∧ (m.set a o).outputs = m.outputs ++ [o] := by
  constructor <;> simp [TransferMap.set, h]

end Cyclone

namespace Cyclone

/-- Bound on the reference a value may contain. -/
def ValRefsLt (n : Nat) : Val → Prop
  | .prim _ => True
  | .ref s => s < n

instance (n : Nat) (v : Val) : Decidable (ValRefsLt n v) :=
  match v with
  | .prim _ => isTrue trivial
  | .ref s => inferInstanceAs (Decidable (s < n))

/-- Well-formed object relative to a heap size: every field reference is a
valid address and the field keys are distinct (as JavaScript own
properties are). -/
def ObjWF (n : Nat) (o : Obj) : Prop :=
  (∀ kw ∈ o.fields, ValRefsLt n kw.2) ∧ (o.fields.map Prod.fst).Nodup

instance (n : Nat) (o : Obj) : Decidable (ObjWF n o) := by
  unfold ObjWF
  infer_instance

/-- Well-formed heap: every object is well-formed w.r.t. the heap size. -/
def HeapWF (H : Heap) : Prop := ∀ x, (h : x < H.length) → ObjWF H.length H[x]

instance (H : Heap) : Decidable (HeapWF H) := Nat.decidableBallLT _ _

/-- Addresses below `n` only reference addresses below `n` (during a clone
the original region of the heap stays closed: new objects are appended
after it and old objects are never mutated). -/
def ClosedBelow (n : Nat) (H : Heap) : Prop :=
  ∀ x, x < n → ∀ o, H[x]? = some o → ∀ kw ∈ o.fields, ValRefsLt n kw.2

theorem closedBelow_of_heapWF {H : Heap} (h : HeapWF H) : ClosedBelow H.length H := by
  intro x hx o ho kw hkw
  have hx2 : H[x] = o := by
    rw [List.getElem?_eq_getElem hx] at ho
    injection ho
  exact (h x hx).1 kw (by rw [hx2]; exact hkw)

/-- The callable addresses of a heap. -/
def isFuncAddr (H : Heap) (s : Nat) : Prop := ∃ id fs, H[s]? = some (.funcObj id fs)

/-- Relation between an original member value and its cloned counterpart:
primitives are copied as-is, callables are passed through by reference, and
all other objects go through the transfer map. -/
def valRel (H : Heap) (tm : TransferMap) (w w2 : Val) : Prop :=
  (∃ p, w = .prim p ∧ w2 = .prim p) ∨
  (∃ s, w = .ref s ∧ isFuncAddr H s ∧ w2 = .ref s) ∨
  (∃ s, w = .ref s ∧ s ∈ tm.inputs ∧ w2 = tm.get s)

/-- Field-wise `valRel`: same key, related values. -/
def fieldRel (H : Heap) (tm : TransferMap) (kw kw2 : String × Val) : Prop :=
  kw2.1 = kw.1 ∧ valRel H tm kw.2 kw2.2

/-- Structural correspondence between an original object and its populated
clone: the kind and value-content match (a regexp loses its untested
flags), and collection fields correspond pointwise. -/
inductive objRel (H : Heap) (tm : TransferMap) : Obj → Obj → Prop
  | boxedString (s : String) : objRel H tm (.boxedString s) (.boxedString s)
  | boxedNumber (n : Int) : objRel H tm (.boxedNumber n) (.boxedNumber n)
  | boxedBoolean (b : Bool) : objRel H tm (.boxedBoolean b) (.boxedBoolean b)
  | date (t : Int) : objRel H tm (.date t) (.date t)
  | regexp (src : String) (g ic ml oth : Bool) :
      objRel H tm (.regexp src g ic ml oth) (.regexp src g ic ml false)
  | html (name : String) (data : Nat) (cc : Bool) :
      objRel H tm (.html name data cc) (.html name data cc)
  | arr (len : Nat) (fsI fsO : List (String × Val)) :
      List.Forall₂ (fieldRel H tm) fsI fsO → objRel H tm (.arr len fsI) (.arr len fsO)
  | plain (pr : Nat) (fsI fsO : List (String × Val)) :
      List.Forall₂ (fieldRel H tm) fsI fsO → objRel H tm (.plain pr fsI) (.plain pr fsO)

/-- A transfer-map entry is coherent when the registered output is a
reference to an object structurally corresponding to the original. -/
def CohEntry (H : Heap) (tm : TransferMap) (x : Nat) (o : Val) : Prop :=
  ∃ b objI objO, o = .ref b ∧ H[x]? = some objI ∧ H[b]? = some objO ∧ objRel H tm objI objO

/-- State growth across a nested cloning call: existing heap addresses keep
their objects and the transfer map only grows at the end. -/
structure Frame (st st2 : St) : Prop where
  hlen : st.heap.length ≤ st2.heap.length
  hagree : ∀ x, x < st.heap.length → st2.heap[x]? = st.heap[x]?
  htmIn : ∃ t, st2.tMap.inputs = st.tMap.inputs ++ t
  htmOut : ∃ t, st2.tMap.outputs = st.tMap.outputs ++ t

/-- State growth across the collection-population loop: as `Frame`, except
the output object under population (address `outAddr`) is also mutated. -/
structure FrameC (outAddr : Nat) (st st2 : St) : Prop where
  hlen : st.heap.length ≤ st2.heap.length
  hagree : ∀ x, x < st.heap.length → x ≠ outAddr → st2.heap[x]? = st.heap[x]?
  htmIn : ∃ t, st2.tMap.inputs = st.tMap.inputs ++ t
  htmOut : ∃ t, st2.tMap.outputs = st.tMap.outputs ++ t

theorem Frame.refl (st : St) : Frame st st :=
  ⟨Nat.le_refl _, fun _ _ => Eq.refl _, ⟨[], by simp⟩, ⟨[], by simp⟩⟩

theorem Frame.comp {st1 st2 st3 : St} (f : Frame st1 st2) (g : Frame st2 st3) :
    Frame st1 st3 := by
  refine ⟨Nat.le_trans f.hlen g.hlen, ?_, ?_, ?_⟩
  · intro x hx
    rw [g.hagree x (Nat.lt_of_lt_of_le hx f.hlen), f.hagree x hx]
  · obtain ⟨t1, h1⟩ := f.htmIn
    obtain ⟨t2, h2⟩ := g.htmIn
    exact ⟨t1 ++ t2, by rw [h2, h1, List.append_assoc]⟩
  · obtain ⟨t1, h1⟩ := f.htmOut
    obtain ⟨t2, h2⟩ := g.htmOut
    exact ⟨t1 ++ t2, by rw [h2, h1, List.append_assoc]⟩

/-- The invariant carried through the recursion, for registry-empty runs.
`ℓ₀` is the bound of the original region; `A` is the set of addresses whose
clones are still being populated up the call stack (their entries need not
be coherent yet). -/
structure Inv (ℓ₀ : Nat) (A : List Nat) (st : St) : Prop where
  hle : ℓ₀ ≤ st.heap.length
  hwf : HeapWF st.heap
  hclosed : ClosedBelow ℓ₀ st.heap
  htmLen : st.tMap.inputs.length = st.tMap.outputs.length
  htmNodup : st.tMap.inputs.Nodup
  htmInLt : ∀ x ∈ st.tMap.inputs, x < ℓ₀
  htmOutRange : ∀ o ∈ st.tMap.outputs, ∃ b, o = .ref b ∧ ℓ₀ ≤ b ∧ b < st.heap.length
  htmOutNodup : st.tMap.outputs.Nodup
  hopen : ∀ x ∈ A, x ∈ st.tMap.inputs
  hcoh : ∀ x o, (x, o) ∈ List.zip st.tMap.inputs st.tMap.outputs → x ∉ A →
    CohEntry st.heap st.tMap x o

theorem tmGet_mono {m m2 : TransferMap} (hlen : m.inputs.length = m.outputs.length)
    (hlen2 : m2.inputs.length = m2.outputs.length)
    (hin : ∃ t, m2.inputs = m.inputs ++ t) (hout : ∃ t, m2.outputs = m.outputs ++ t)
    {x : Nat} (hmem : x ∈ m.inputs) : m2.get x = m.get x := by
  obtain ⟨t1, h1⟩ := hin
  obtain ⟨t2, h2⟩ := hout
  rw [tmGet_eq_lookupPar m hlen, tmGet_eq_lookupPar m2 hlen2, h1, h2,
    lookupPar_append hmem hlen]

theorem valRel_mono {H H2 : Heap} {tm tm2 : TransferMap} {w w2 : Val} {n : Nat}
    (h : valRel H tm w w2) (hw : ValRefsLt n w)
    (hag : ∀ x, x < n → H2[x]? = H[x]?)
    (hlen : tm.inputs.length = tm.outputs.length)
    (hlen2 : tm2.inputs.length = tm2.outputs.length)
    (hin : ∃ t, tm2.inputs = tm.inputs ++ t) (hout : ∃ t, tm2.outputs = tm.outputs ++ t) :
    valRel H2 tm2 w w2 := by
  rcases h with ⟨p, rfl, rfl⟩ | ⟨s, rfl, hf, rfl⟩ | ⟨s, rfl, hs, rfl⟩
  · exact Or.inl ⟨p, rfl, rfl⟩
  · refine Or.inr (Or.inl ⟨s, rfl, ?_, rfl⟩)
    obtain ⟨id, fs, hfs⟩ := hf
    exact ⟨id, fs, by rw [hag s hw, hfs]⟩
  · refine Or.inr (Or.inr ⟨s, rfl, ?_, ?_⟩)
    · obtain ⟨t1, h1⟩ := hin
      rw [h1]
      exact List.mem_append_left _ hs
    · exact (tmGet_mono hlen hlen2 hin hout hs).symm

theorem forall2_fieldRel_mono {H H2 : Heap} {tm tm2 : TransferMap} {n : Nat}
    {fsI fsO : List (String × Val)}
    (h : List.Forall₂ (fieldRel H tm) fsI fsO)
    (hw : ∀ kw ∈ fsI, ValRefsLt n kw.2)
    (hag : ∀ x, x < n → H2[x]? = H[x]?)
    (hlen : tm.inputs.length = tm.outputs.length)
    (hlen2 : tm2.inputs.length = tm2.outputs.length)
    (hin : ∃ t, tm2.inputs = tm.inputs ++ t) (hout : ∃ t, tm2.outputs = tm.outputs ++ t) :
    List.Forall₂ (fieldRel H2 tm2) fsI fsO := by
  induction h with
  | nil => exact List.Forall₂.nil
  | @cons kw kw2 l1 l2 hr _ ih =>
    refine List.Forall₂.cons ⟨hr.1, ?_⟩ (ih (fun kw h => hw kw (List.mem_cons_of_mem _ h)))
    exact valRel_mono hr.2 (hw kw (List.mem_cons_self _ _)) hag hlen hlen2 hin hout

theorem objRel_mono {H H2 : Heap} {tm tm2 : TransferMap} {n : Nat} {objI objO : Obj}
    (h : objRel H tm objI objO)
    (hw : ∀ kw ∈ objI.fields, ValRefsLt n kw.2)
    (hag : ∀ x, x < n → H2[x]? = H[x]?)
    (hlen : tm.inputs.length = tm.outputs.length)
    (hlen2 : tm2.inputs.length = tm2.outputs.length)
    (hin : ∃ t, tm2.inputs = tm.inputs ++ t) (hout : ∃ t, tm2.outputs = tm.outputs ++ t) :
    objRel H2 tm2 objI objO := by
  cases h with
  | boxedString s => exact .boxedString s
  | boxedNumber n => exact .boxedNumber n
  | boxedBoolean b => exact .boxedBoolean b
  | date t => exact .date t
  | regexp src g ic ml oth => exact .regexp src g ic ml oth
  | html name data cc => exact .html name data cc
  | arr len fsI fsO hf =>
    exact .arr len fsI fsO (forall2_fieldRel_mono hf hw hag hlen hlen2 hin hout)
  | plain pr fsI fsO hf =>
    exact .plain pr fsI fsO (forall2_fieldRel_mono hf hw hag hlen hlen2 hin hout)

theorem cohEntry_mono {H H2 : Heap} {tm tm2 : TransferMap} {ℓ₀ x : Nat} {o : Val}
    (h : CohEntry H tm x o) (hx : x < ℓ₀)
    (hclosed : ClosedBelow ℓ₀ H)
    (hagl : ∀ y, y < ℓ₀ → H2[y]? = H[y]?)
    (hb : ∀ b, o = .ref b → H2[b]? = H[b]?)
    (hlen : tm.inputs.length = tm.outputs.length)
    (hlen2 : tm2.inputs.length = tm2.outputs.length)
    (hin : ∃ t, tm2.inputs = tm.inputs ++ t) (hout : ∃ t, tm2.outputs = tm.outputs ++ t) :
    CohEntry H2 tm2 x o := by
  obtain ⟨b, objI, objO, rfl, hI, hO, hrel⟩ := h
  refine ⟨b, objI, objO, rfl, ?_, ?_, ?_⟩
  · rw [hagl x hx, hI]
  · rw [hb b rfl, hO]
  · exact objRel_mono hrel (hclosed x hx objI hI) hagl hlen hlen2 hin hout

end Cyclone

namespace Cyclone

/-- Collection objects: the two kinds whose members are recursively cloned. -/
def Obj.collLike : Obj → Prop
  | .arr _ _ => True
  | .plain _ _ => True
  | _ => False

/-- Replace the field list of a collection object. -/
def Obj.withFields : Obj → List (String × Val) → Obj
  | .arr len _, fs => .arr len fs
  | .plain pr _, fs => .plain pr fs
  | .funcObj id _, fs => .funcObj id fs
  | o, _ => o

theorem withFields_fields {o : Obj} (h : o.collLike) (fs : List (String × Val)) :
    (o.withFields fs).fields = fs := by
  cases o <;> first | rfl | exact False.elim h

theorem withFields_withFields {o : Obj} (fs fs2 : List (String × Val)) :
    (o.withFields fs).withFields fs2 = o.withFields fs2 := by
  cases o <;> rfl

theorem withFields_collLike {o : Obj} (h : o.collLike) (fs : List (String × Val)) :
    (o.withFields fs).collLike := by
  cases o <;> first | exact trivial | exact False.elim h

theorem withFields_self {o : Obj} : o.withFields o.fields = o := by
  cases o <;> rfl

theorem setField_eq_withFields (o : Obj) (k : String) (v : Val) :
    o.setField k v = o.withFields (assignField o.fields k v) := by
  cases o <;> rfl

theorem assignField_not_mem {fs : List (String × Val)} {k : String} (v : Val)
    (h : k ∉ fs.map Prod.fst) : assignField fs k v = fs ++ [(k, v)] := by
  induction fs with
  | nil => rfl
  | cons kw rest ih =>
    have h1 : kw.1 ≠ k := by
      intro e
      exact h (by simp [e])
    have h2 : k ∉ rest.map Prod.fst := fun e => h (by simp [e])
    obtain ⟨k0, v0⟩ := kw
    simp only [assignField, h1, if_false, List.cons_append, List.cons.injEq, true_and]
    exact ih h2

theorem getElem?_some_lt {α : Type} {l : List α} {x : Nat} {o : α}
    (h : l[x]? = some o) : x < l.length := by
  by_contra hx
  rw [List.getElem?_eq_none (Nat.le_of_not_lt hx)] at h
  cases h

theorem heapSetField_eq_set {H : Heap} {a : Nat} {o : Obj} (h : H[a]? = some o)
    (k : String) (v : Val) : heapSetField H a k v = H.set a (o.setField k v) := by
  unfold heapSetField
  rw [h]

theorem objWF_mono {n m : Nat} {o : Obj} (h : ObjWF n o) (hle : n ≤ m) : ObjWF m o := by
  refine ⟨fun kw hkw => ?_, h.2⟩
  have := h.1 kw hkw
  cases hv : kw.2 with
  | prim p => exact trivial
  | ref s =>
    rw [hv] at this
    exact Nat.lt_of_lt_of_le this hle

theorem heapWF_append {H : Heap} {shell : Obj} (h : HeapWF H)
    (hs : ObjWF (H.length + 1) shell) : HeapWF (H ++ [shell]) := by
  intro x hx
  rw [List.length_append, List.length_singleton] at hx
  rcases Nat.lt_or_ge x H.length with hlt | hge
  · have he : (H ++ [shell])[x] = H[x] := List.getElem_append_left hlt
    rw [he]
    exact objWF_mono (h x hlt) (by simp)
  · have hx2 : x = H.length := Nat.le_antisymm (Nat.lt_succ_iff.1 hx) hge
    subst hx2
    have he : (H ++ [shell])[H.length] = shell := by
      have := List.getElem?_concat_length H shell
      rw [List.getElem?_eq_getElem (by simp)] at this
      injection this
    rw [he]
    exact objWF_mono hs (by simp)

theorem heapWF_set {H : Heap} {x : Nat} {o2 : Obj} (h : HeapWF H)
    (ho : ObjWF H.length o2) : HeapWF (H.set x o2) := by
  intro y hy
  rw [List.length_set] at hy
  by_cases hxy : x = y
  · subst hxy
    have he : (H.set x o2)[x] = o2 := List.getElem_set_self (by simpa using hy)
    rw [he]
    exact objWF_mono ho (by simp)
  · have he : (H.set x o2)[y] = H[y] := List.getElem_set_ne hxy _
    rw [he]
    exact objWF_mono (h y hy) (by simp)

theorem closedBelow_mono {n : Nat} {H H2 : Heap} (h : ClosedBelow n H)
    (hag : ∀ y, y < n → H2[y]? = H[y]?) : ClosedBelow n H2 := by
  intro x hx o ho kw hkw
  rw [hag x hx] at ho
  exact h x hx o ho kw hkw

theorem tmGet_ne_null_mem {m : TransferMap} (hlen : m.inputs.length = m.outputs.length)
    {x : Nat} (h : m.get x ≠ .prim .vNull) : x ∈ m.inputs := by
  rw [tmGet_eq_lookupPar m hlen] at h
  exact lookupPar_ne_null_mem h

theorem tmGet_mem_outputs {m : TransferMap} (hlen : m.inputs.length = m.outputs.length)
    {x : Nat} (h : x ∈ m.inputs) : m.get x ∈ m.outputs := by
  rw [tmGet_eq_lookupPar m hlen]
  exact lookupPar_mem_outputs h hlen

theorem tmGet_set_self {m : TransferMap} (hlen : m.inputs.length = m.outputs.length)
    {a : Nat} (h : a ∉ m.inputs) (o : Val) : (m.set a o).get a = o := by
  obtain ⟨h1, h2⟩ := tmSet_not_mem (m := m) (o := o) h
  have hlen2 : (m.set a o).inputs.length = (m.set a o).outputs.length := by
    rw [h1, h2]
    simp [hlen]
  rw [tmGet_eq_lookupPar _ hlen2, h1, h2]
  exact lookupPar_append_self h hlen

theorem zip_right_nodup {is : List Nat} {os : List Val} {x y : Nat} {o : Val}
    (h1 : (x, o) ∈ List.zip is os) (h2 : (y, o) ∈ List.zip is os)
    (hnd : os.Nodup) : x = y := by
  induction is generalizing os with
  | nil => simp at h1
  | cons i is ih =>
    rcases os with _ | ⟨o2, os⟩
    · simp at h1
    · rcases List.mem_cons.1 h1 with ha | ha <;> rcases List.mem_cons.1 h2 with hb | hb
      · injection ha with ha1 _
        injection hb with hb1 _
        rw [ha1, hb1]
      · injection ha with _ ha2
        subst ha2
        exact absurd (List.of_mem_zip hb).2 (List.nodup_cons.1 hnd).1
      · injection hb with _ hb2
        subst hb2
        exact absurd (List.of_mem_zip ha).2 (List.nodup_cons.1 hnd).1
      · exact ih ha hb (List.nodup_cons.1 hnd).2

theorem isFuncAddr_lt {H : Heap} {s : Nat} (h : isFuncAddr H s) : s < H.length := by
  obtain ⟨id, fs, hf⟩ := h
  exact getElem?_some_lt hf

theorem valRel_refsLt {H : Heap} {tm : TransferMap} {v vm : Val}
    (h : valRel H tm v vm)
    (hout : ∀ o ∈ tm.outputs, ∃ b, o = .ref b ∧ b < H.length)
    (hlen : tm.inputs.length = tm.outputs.length) :
    ValRefsLt H.length vm := by
  rcases h with ⟨p, _, rfl⟩ | ⟨s, _, hf, rfl⟩ | ⟨s, _, hs, rfl⟩
  · exact trivial
  · exact isFuncAddr_lt hf
  · obtain ⟨b, hb, hlt⟩ := hout _ (tmGet_mem_outputs hlen hs)
    rw [hb]
    exact hlt

theorem jsTypeof_ref_func {H : Heap} {a id : Nat} {fs : List (String × Val)}
    (h : H[a]? = some (.funcObj id fs)) : jsTypeof H (.ref a) = "function" := by
  simp [jsTypeof, h]

theorem jsTypeof_ref_not_func {H : Heap} {a : Nat} (h : ¬ isFuncAddr H a) :
    jsTypeof H (.ref a) = "object" := by
  simp only [jsTypeof]
  split
  · next id fs heq => exact absurd ⟨id, fs, heq⟩ h
  · rfl

theorem iSClone_prim_eq (σ : FunTable) (procs : List Val) (fuel : Nat) (st : St)
    (p : Prim) : _iSClone σ procs (fuel + 1) (.prim p) st = .ok (.prim p, st) := by
  cases p <;> rfl

theorem iSClone_ref_obj {σ : FunTable} {procs : List Val} {fuel : Nat} {st : St} {a : Nat}
    (h : jsTypeof st.heap (.ref a) = "object") :
    _iSClone σ procs (fuel + 1) (.ref a) st = _handleObjectClone σ procs fuel a st := by
  simp only [_iSClone, h]
  rw [if_neg (fun hh => Val.noConfusion hh)]
  simp

theorem iSClone_ref_func {σ : FunTable} {procs : List Val} {fuel : Nat} {st : St} {a : Nat}
    (h : jsTypeof st.heap (.ref a) = "function") :
    _iSClone σ procs (fuel + 1) (.ref a) st = .ok (.ref a, st) := by
  simp only [_iSClone, h]
  rw [if_neg (fun hh => Val.noConfusion hh)]
  simp

end Cyclone

namespace Cyclone

/-- Behaviour of `_handleObjectClone` when the procedure registry is empty:
the custom-clone attempt always yields the `undefined` sentinel, so the
built-in handling runs. -/
theorem handleObjectClone_empty (σ : FunTable) (fuel : Nat) (a : Nat) (st : St) :
    _handleObjectClone σ [] (fuel + 1) a st =
      if st.tMap.get a ≠ .prim .vNull then .ok (st.tMap.get a, st)
      else
        match st.heap[a]? with
        | none => .error .dangling
        | some obj =>
          match cloneShell obj with
          | .error e => .error e
          | .ok (shell, isCollection) =>
            if isCollection then
              match _handleCollectionClone σ [] fuel obj.fields st.heap.length
                  ⟨st.heap ++ [shell], st.tMap.set a (.ref st.heap.length)⟩ with
              | .error e => .error e
              | .ok st2 => .ok (.ref st.heap.length, st2)
            else
              .ok (.ref st.heap.length,
                ⟨st.heap ++ [shell], st.tMap.set a (.ref st.heap.length)⟩) := rfl

/-- Registering a freshly allocated shell for an unregistered address `a`
preserves the invariant, with `a` joining the open set. -/
theorem inv_register {ℓ₀ : Nat} {A : List Nat} {st : St} {a : Nat} {shell : Obj}
    (hInv : Inv ℓ₀ A st) (ha : a < ℓ₀) (hmem : a ∉ st.tMap.inputs)
    (hsWF : ObjWF (st.heap.length + 1) shell) :
    Inv ℓ₀ (a :: A) ⟨st.heap ++ [shell], st.tMap.set a (.ref st.heap.length)⟩ ∧
    Frame st ⟨st.heap ++ [shell], st.tMap.set a (.ref st.heap.length)⟩ ∧
    (st.tMap.set a (.ref st.heap.length)).get a = .ref st.heap.length ∧
    a ∈ (st.tMap.set a (.ref st.heap.length)).inputs := by
  obtain ⟨hin, hout⟩ := tmSet_not_mem (m := st.tMap) (o := (.ref st.heap.length : Val)) hmem
  have hagl : ∀ y, y < st.heap.length → (st.heap ++ [shell])[y]? = st.heap[y]? :=
    fun y hy => List.getElem?_append_left hy
  have hlen2 : (st.tMap.set a (.ref st.heap.length)).inputs.length =
      (st.tMap.set a (.ref st.heap.length)).outputs.length := by
    rw [hin, hout]
    simp [hInv.htmLen]
  refine ⟨⟨?_, ?_, ?_, hlen2, ?_, ?_, ?_, ?_, ?_, ?_⟩, ⟨?_, ?_, ?_, ?_⟩, ?_, ?_⟩
  · exact Nat.le_trans hInv.hle (by simp)
  · exact heapWF_append hInv.hwf hsWF
  · exact closedBelow_mono hInv.hclosed
      (fun y hy => hagl y (Nat.lt_of_lt_of_le hy hInv.hle))
  · rw [hin]
    simp [List.nodup_append, hInv.htmNodup, hmem]
  · intro x hx
    rw [hin] at hx
    rcases List.mem_append.1 hx with h | h
    · exact hInv.htmInLt x h
    · rw [List.mem_singleton.1 h]
      exact ha
  · intro o ho
    rw [hout] at ho
    rcases List.mem_append.1 ho with h | h
    · obtain ⟨b, rfl, hb1, hb2⟩ := hInv.htmOutRange o h
      exact ⟨b, rfl, hb1, by simp; omega⟩
    · rw [List.mem_singleton.1 h]
      exact ⟨st.heap.length, rfl, hInv.hle, by simp⟩
  · rw [hout]
    refine List.Nodup.append hInv.htmOutNodup (List.nodup_singleton _) ?_
    intro o ho ho2
    rw [List.mem_singleton.1 ho2] at ho
    obtain ⟨b, hb, _, hb2⟩ := hInv.htmOutRange _ ho
    injection hb with hb
    omega
  · intro x hx
    rw [hin]
    rcases List.mem_cons.1 hx with h | h
    · rw [h]
      exact List.mem_append_right _ (List.mem_singleton_self a)
    · exact List.mem_append_left _ (hInv.hopen x h)
  · intro x o hzip hx
    rw [hin, hout, List.zip_append (by rw [hInv.htmLen])] at hzip
    rcases List.mem_append.1 hzip with h | h
    · have hxA : x ∉ A := fun h2 => hx (List.mem_cons_of_mem a h2)
      refine cohEntry_mono (hInv.hcoh x o h hxA) (hInv.htmInLt x (List.of_mem_zip h).1)
        hInv.hclosed (fun y hy => hagl y (Nat.lt_of_lt_of_le hy hInv.hle)) ?_
        hInv.htmLen hlen2 ⟨[a], hin⟩ ⟨[.ref st.heap.length], hout⟩
      intro b hb
      obtain ⟨b2, hb2, _, hlt⟩ := hInv.htmOutRange o (List.of_mem_zip h).2
      rw [hb] at hb2
      injection hb2 with hb2
      exact hagl b (hb2 ▸ hlt)
    · simp only [List.zip_cons_cons, List.zip_nil_right, List.mem_singleton] at h
      injection h with h1 _
      exact absurd (h1 ▸ List.mem_cons_self a A) (h1 ▸ hx)
  · simp
  · exact hagl
  · exact ⟨[a], hin⟩
  · exact ⟨[.ref st.heap.length], hout⟩
  · exact tmGet_set_self hInv.htmLen hmem _
  · rw [hin]
    exact List.mem_append_right _ (List.mem_singleton_self a)

/-- Once the entry for `a` is known to be coherent, `a` can leave the open
set. -/
theorem inv_close {ℓ₀ : Nat} {A : List Nat} {a : Nat} {st : St}
    (hInv : Inv ℓ₀ (a :: A) st)
    (hcohA : CohEntry st.heap st.tMap a (st.tMap.get a)) : Inv ℓ₀ A st := by
  refine ⟨hInv.hle, hInv.hwf, hInv.hclosed, hInv.htmLen, hInv.htmNodup, hInv.htmInLt,
    hInv.htmOutRange, hInv.htmOutNodup, ?_, ?_⟩
  · intro x hx
    exact hInv.hopen x (List.mem_cons_of_mem a hx)
  · intro x o hzip hx
    by_cases hxa : x = a
    · subst hxa
      have ho : o = st.tMap.get x := by
        have h2 := lookupPar_zip_mem hzip hInv.htmNodup
        rw [tmGet_eq_lookupPar _ hInv.htmLen, h2]
      rw [ho]
      exact hcohA
    · refine hInv.hcoh x o hzip ?_
      intro h
      rcases List.mem_cons.1 h with h | h
      · exact hxa h
      · exact hx h

end Cyclone

namespace Cyclone

/-- Induction statement for `_iSClone` (registry empty): a successful run
preserves the invariant, only grows the state, and relates input to output. -/
def MIS (σ : FunTable) (fuel : Nat) : Prop :=
  ∀ ℓ₀ A v st v2 st2, Inv ℓ₀ A st → ValRefsLt ℓ₀ v →
    _iSClone σ [] fuel v st = .ok (v2, st2) →
    Inv ℓ₀ A st2 ∧ Frame st st2 ∧ valRel st2.heap st2.tMap v v2

/-- Induction statement for `_handleObjectClone` (registry empty). -/
def MOBJ (σ : FunTable) (fuel : Nat) : Prop :=
  ∀ ℓ₀ A a st v2 st2, Inv ℓ₀ A st → a < ℓ₀ →
    _handleObjectClone σ [] fuel a st = .ok (v2, st2) →
    Inv ℓ₀ A st2 ∧ Frame st st2 ∧ valRel st2.heap st2.tMap (.ref a) v2

/-- Induction statement for `_handleCollectionClone` (registry empty):
populating the open output `outAddr` from the remaining input `fields`
appends the corresponding cloned fields onto it. -/
def MCOLL (σ : FunTable) (fuel : Nat) : Prop :=
  ∀ ℓ₀ A a outAddr curObj fields st st2,
    Inv ℓ₀ (a :: A) st →
    a ∈ st.tMap.inputs →
    st.tMap.get a = .ref outAddr →
    ℓ₀ ≤ outAddr →
    st.heap[outAddr]? = some curObj →
    curObj.collLike →
    (fields.map Prod.fst).Nodup →
    (∀ k ∈ fields.map Prod.fst, k ∉ curObj.fields.map Prod.fst) →
    (∀ kw ∈ fields, ValRefsLt ℓ₀ kw.2) →
    _handleCollectionClone σ [] fuel fields outAddr st = .ok st2 →
    Inv ℓ₀ (a :: A) st2 ∧ FrameC outAddr st st2 ∧
    ∃ fsNew, st2.heap[outAddr]? = some (curObj.withFields (curObj.fields ++ fsNew)) ∧
      List.Forall₂ (fieldRel st2.heap st2.tMap) fields fsNew

theorem step_iS (σ : FunTable) (fuel : Nat) (ihObj : MOBJ σ fuel) : MIS σ (fuel + 1) := by
  intro ℓ₀ A v st v2 st2 hInv hvw hok
  cases v with
  | prim p =>
    rw [iSClone_prim_eq] at hok
    injection hok with hok
    injection hok with h1 h2
    subst h1
    subst h2
    exact ⟨hInv, Frame.refl st, Or.inl ⟨p, rfl, rfl⟩⟩
  | ref a =>
    by_cases hf : isFuncAddr st.heap a
    · rw [iSClone_ref_func (by
        obtain ⟨id, fs, h⟩ := hf
        exact jsTypeof_ref_func h)] at hok
      injection hok with hok
      injection hok with h1 h2
      subst h1
      subst h2
      exact ⟨hInv, Frame.refl st, Or.inr (Or.inl ⟨a, rfl, hf, rfl⟩)⟩
    · rw [iSClone_ref_obj (jsTypeof_ref_not_func hf)] at hok
      exact ihObj ℓ₀ A a st v2 st2 hInv hvw hok

end Cyclone

namespace Cyclone

theorem objWF_no_fields {n : Nat} {o : Obj} (h : o.fields = []) : ObjWF n o := by
  unfold ObjWF
  rw [h]
  exact ⟨fun kw hkw => absurd hkw (List.not_mem_nil kw), List.nodup_nil⟩

/-- Finishing a non-collection clone: allocate the shell, register it, and
the new entry is immediately coherent. -/
theorem finish_noncoll {ℓ₀ : Nat} {A : List Nat} {st : St} {a : Nat} {obj shell : Obj}
    (hInv : Inv ℓ₀ A st) (ha : a < ℓ₀) (hmem : a ∉ st.tMap.inputs)
    (hheap : st.heap[a]? = some obj)
    (hsWF : ObjWF (st.heap.length + 1) shell)
    (hrel : ∀ H tm, objRel H tm obj shell) :
    Inv ℓ₀ A ⟨st.heap ++ [shell], st.tMap.set a (.ref st.heap.length)⟩ ∧
    Frame st ⟨st.heap ++ [shell], st.tMap.set a (.ref st.heap.length)⟩ ∧
    valRel (st.heap ++ [shell]) (st.tMap.set a (.ref st.heap.length))
      (.ref a) (.ref st.heap.length) := by
  obtain ⟨hInv1, hFr1, hget1, hmem1⟩ := inv_register hInv ha hmem hsWF
  have haLt : a < st.heap.length := Nat.lt_of_lt_of_le ha hInv.hle
  have hcohA : CohEntry (st.heap ++ [shell]) (st.tMap.set a (.ref st.heap.length)) a
      ((st.tMap.set a (.ref st.heap.length)).get a) := by
    rw [hget1]
    exact ⟨st.heap.length, obj, shell, rfl,
      by rw [List.getElem?_append_left haLt]; exact hheap,
      List.getElem?_concat_length _ _, hrel _ _⟩
  exact ⟨inv_close hInv1 hcohA, hFr1, Or.inr (Or.inr ⟨a, rfl, hmem1, hget1.symm⟩)⟩

/-- Finishing a collection clone: allocate and register the empty shell,
populate it through the collection loop, and upgrade the now-complete entry
to a coherent one. -/
theorem finish_coll {σ : FunTable} {fuel : Nat} {ℓ₀ : Nat} {A : List Nat} {st : St}
    {a : Nat} {obj : Obj} {stc : St} (shell : Obj)
    (ihColl : MCOLL σ fuel)
    (hInv : Inv ℓ₀ A st) (ha : a < ℓ₀) (hmem : a ∉ st.tMap.inputs)
    (hheap : st.heap[a]? = some obj)
    (hshellColl : shell.collLike) (hshellFields : shell.fields = [])
    (hrelBuild : ∀ H tm fsNew, List.Forall₂ (fieldRel H tm) obj.fields fsNew →
      objRel H tm obj (shell.withFields fsNew))
    (hcoll : _handleCollectionClone σ [] fuel obj.fields st.heap.length
      ⟨st.heap ++ [shell], st.tMap.set a (.ref st.heap.length)⟩ = .ok stc) :
    Inv ℓ₀ A stc ∧ Frame st stc ∧
    valRel stc.heap stc.tMap (.ref a) (.ref st.heap.length) := by
  obtain ⟨hInv1, hFr1, hget1, hmem1⟩ := inv_register hInv ha hmem (objWF_no_fields hshellFields)
  have haLt : a < st.heap.length := Nat.lt_of_lt_of_le ha hInv.hle
  have haLt1 : a < st.heap.length + 1 := Nat.lt_succ_of_lt haLt
  have halen : a < st.heap.length := haLt
  have hObjAt : st.heap[a] = obj := by
    rw [List.getElem?_eq_getElem halen] at hheap
    injection hheap
  have hnodup : (obj.fields.map Prod.fst).Nodup := by
    have := (hInv.hwf a halen).2
    rw [hObjAt] at this
    exact this
  have hvals : ∀ kw ∈ obj.fields, ValRefsLt ℓ₀ kw.2 :=
    hInv.hclosed a ha obj hheap
  have hout1 : ((⟨st.heap ++ [shell], st.tMap.set a (.ref st.heap.length)⟩ : St)).heap[st.heap.length]? = some shell :=
    List.getElem?_concat_length _ _
  obtain ⟨hInv2, hFrC, fsNew, hfout, hforall⟩ :=
    ihColl ℓ₀ A a st.heap.length shell obj.fields _ stc hInv1 hmem1 hget1 hInv.hle hout1
      hshellColl hnodup (by rw [hshellFields]; intro k _ hk; exact absurd hk (List.not_mem_nil k))
      hvals hcoll
  have hget2 : stc.tMap.get a = .ref st.heap.length := by
    rw [tmGet_mono hInv1.htmLen hInv2.htmLen hFrC.htmIn hFrC.htmOut hmem1, hget1]
  have hcohA : CohEntry stc.heap stc.tMap a (stc.tMap.get a) := by
    rw [hget2]
    refine ⟨st.heap.length, obj, shell.withFields fsNew, rfl, ?_, ?_, ?_⟩
    · rw [hFrC.hagree a (by simpa using haLt1) (Nat.ne_of_lt haLt),
        List.getElem?_append_left haLt]
      exact hheap
    · rw [hfout, hshellFields, List.nil_append]
    · exact hrelBuild _ _ fsNew hforall
  refine ⟨inv_close hInv2 hcohA, ?_, Or.inr (Or.inr ⟨a, rfl, ?_, hget2.symm⟩)⟩
  · refine ⟨Nat.le_trans hFr1.hlen hFrC.hlen, ?_, ?_, ?_⟩
    · intro x hx
      rw [hFrC.hagree x (by simpa using Nat.lt_succ_of_lt hx) (Nat.ne_of_lt hx),
        hFr1.hagree x hx]
    · obtain ⟨t1, h1⟩ := hFr1.htmIn
      obtain ⟨t2, h2⟩ := hFrC.htmIn
      exact ⟨t1 ++ t2, by rw [h2, h1, List.append_assoc]⟩
    · obtain ⟨t1, h1⟩ := hFr1.htmOut
      obtain ⟨t2, h2⟩ := hFrC.htmOut
      exact ⟨t1 ++ t2, by rw [h2, h1, List.append_assoc]⟩
  · obtain ⟨t1, h1⟩ := hFrC.htmIn
    rw [h1]
    exact List.mem_append_left _ hmem1

theorem step_obj (σ : FunTable) (fuel : Nat) (ihColl : MCOLL σ fuel) :
    MOBJ σ (fuel + 1) := by
  intro ℓ₀ A a st v2 st2 hInv ha hok
  rw [handleObjectClone_empty] at hok
  by_cases hget : st.tMap.get a ≠ .prim .vNull
  · rw [if_pos hget] at hok
    injection hok with hok
    injection hok with h1 h2
    subst h1
    subst h2
    exact ⟨hInv, Frame.refl st,
      Or.inr (Or.inr ⟨a, rfl, tmGet_ne_null_mem hInv.htmLen hget, rfl⟩)⟩
  · rw [if_neg hget] at hok
    have hmem : a ∉ st.tMap.inputs := by
      intro hm
      obtain ⟨b, hb, _, _⟩ := hInv.htmOutRange _ (tmGet_mem_outputs hInv.htmLen hm)
      rw [not_not.1 hget] at hb
      cases hb
    rcases hheap : st.heap[a]? with _ | obj
    · rw [hheap] at hok
      cases hok
    · rw [hheap] at hok
      cases obj with
      | boxedString s =>
        injection hok with hok
        injection hok with h1 h2
        subst h1
        subst h2
        exact finish_noncoll hInv ha hmem hheap (objWF_no_fields rfl)
          (fun H tm => .boxedString s)
      | boxedNumber n =>
        injection hok with hok
        injection hok with h1 h2
        subst h1
        subst h2
        exact finish_noncoll hInv ha hmem hheap (objWF_no_fields rfl)
          (fun H tm => .boxedNumber n)
      | boxedBoolean b =>
        injection hok with hok
        injection hok with h1 h2
        subst h1
        subst h2
        exact finish_noncoll hInv ha hmem hheap (objWF_no_fields rfl)
          (fun H tm => .boxedBoolean b)
      | date t =>
        injection hok with hok
        injection hok with h1 h2
        subst h1
        subst h2
        exact finish_noncoll hInv ha hmem hheap (objWF_no_fields rfl)
          (fun H tm => .date t)
      | regexp src g ic ml oth =>
        injection hok with hok
        injection hok with h1 h2
        subst h1
        subst h2
        exact finish_noncoll hInv ha hmem hheap (objWF_no_fields rfl)
          (fun H tm => .regexp src g ic ml oth)
      | html name data cc =>
        cases cc with
        | true =>
          injection hok with hok
          injection hok with h1 h2
          subst h1
          subst h2
          exact finish_noncoll hInv ha hmem hheap (objWF_no_fields rfl)
            (fun H tm => .html name data true)
        | false => cases hok
      | funcObj id fs => cases hok
      | exotic tag => cases hok
      | arr len fs =>
        have hok2 : (match _handleCollectionClone σ [] fuel fs st.heap.length
            ⟨st.heap ++ [.arr len []], st.tMap.set a (.ref st.heap.length)⟩ with
          | .error e => (.error e : Except CloneErr (Val × St))
          | .ok stc => .ok (.ref st.heap.length, stc)) = .ok (v2, st2) := hok
        rcases hcoll : _handleCollectionClone σ [] fuel fs st.heap.length
            ⟨st.heap ++ [.arr len []], st.tMap.set a (.ref st.heap.length)⟩ with e | stc
        · rw [hcoll] at hok2
          cases hok2
        · rw [hcoll] at hok2
          injection hok2 with hok2
          injection hok2 with h1 h2
          subst h1
          subst h2
          exact finish_coll (.arr len []) ihColl hInv ha hmem hheap trivial rfl
            (fun H tm fsNew hf => .arr len fs fsNew hf) hcoll
      | plain pr fs =>
        have hok2 : (match _handleCollectionClone σ [] fuel fs st.heap.length
            ⟨st.heap ++ [.plain pr []], st.tMap.set a (.ref st.heap.length)⟩ with
          | .error e => (.error e : Except CloneErr (Val × St))
          | .ok stc => .ok (.ref st.heap.length, stc)) = .ok (v2, st2) := hok
        rcases hcoll : _handleCollectionClone σ [] fuel fs st.heap.length
            ⟨st.heap ++ [.plain pr []], st.tMap.set a (.ref st.heap.length)⟩ with e | stc
        · rw [hcoll] at hok2
          cases hok2
        · rw [hcoll] at hok2
          injection hok2 with hok2
          injection hok2 with h1 h2
          subst h1
          subst h2
          exact finish_coll (.plain pr []) ihColl hInv ha hmem hheap trivial rfl
            (fun H tm fsNew hf => .plain pr fs fsNew hf) hcoll

end Cyclone

namespace Cyclone

theorem step_coll (σ : FunTable) (fuel : Nat) (ihIS : MIS σ fuel) (ihColl : MCOLL σ fuel) :
    MCOLL σ (fuel + 1) := by
  intro ℓ₀ A a outAddr curObj fields st st2 hInv hmemA hgetA houtGe hcur hcl hnodup hdisj
    hvals hok
  cases fields with
  | nil =>
    injection hok with h
    subst h
    refine ⟨hInv, ⟨Nat.le_refl _, fun x _ _ => Eq.refl _, ⟨[], by simp⟩, ⟨[], by simp⟩⟩,
      [], ?_, List.Forall₂.nil⟩
    rw [List.append_nil, withFields_self]
    exact hcur
  | cons kv rest =>
    obtain ⟨k, v⟩ := kv
    have hok2 : (match _iSClone σ [] fuel v st with
        | .error e => (.error e : Except CloneErr St)
        | .ok (vm, stm) => _handleCollectionClone σ [] fuel rest outAddr
            ⟨heapSetField stm.heap outAddr k vm, stm.tMap⟩) = .ok st2 := hok
    rcases his : _iSClone σ [] fuel v st with e | ⟨vm, stm⟩
    · rw [his] at hok2
      cases hok2
    · rw [his] at hok2
      replace hok2 : _handleCollectionClone σ [] fuel rest outAddr
          ⟨heapSetField stm.heap outAddr k vm, stm.tMap⟩ = .ok st2 := hok2
      have hvalv : ValRefsLt ℓ₀ v := hvals (k, v) (List.mem_cons_self _ _)
      obtain ⟨hInvm, hFrm, hrelv⟩ := ihIS ℓ₀ (a :: A) v st vm stm hInv hvalv his
      have houtLt : outAddr < st.heap.length := getElem?_some_lt hcur
      have houtLtm : outAddr < stm.heap.length := Nat.lt_of_lt_of_le houtLt hFrm.hlen
      have hcurm : stm.heap[outAddr]? = some curObj := by
        rw [hFrm.hagree outAddr houtLt]
        exact hcur
      have hvmLt : ValRefsLt stm.heap.length vm :=
        valRel_refsLt hrelv
          (fun o ho => by
            obtain ⟨b, hb, _, h2⟩ := hInvm.htmOutRange o ho
            exact ⟨b, hb, h2⟩)
          hInvm.htmLen
      have hkcur : k ∉ curObj.fields.map Prod.fst := hdisj k (by simp)
      have hsetf : heapSetField stm.heap outAddr k vm =
          stm.heap.set outAddr (curObj.withFields (curObj.fields ++ [(k, vm)])) := by
        rw [heapSetField_eq_set hcurm, setField_eq_withFields,
          assignField_not_mem _ hkcur]
      rw [hsetf] at hok2
      have hcurObjAt : stm.heap[outAddr] = curObj := by
        rw [List.getElem?_eq_getElem houtLtm] at hcurm
        injection hcurm
      have hwfCur : ObjWF stm.heap.length curObj := by
        have h1 := hInvm.hwf outAddr houtLtm
        rw [hcurObjAt] at h1
        exact h1
      have hfields3 : (curObj.withFields (curObj.fields ++ [(k, vm)])).fields =
          curObj.fields ++ [(k, vm)] := withFields_fields hcl _
      have hwfCur3 : ObjWF stm.heap.length (curObj.withFields (curObj.fields ++ [(k, vm)])) := by
        refine ⟨?_, ?_⟩
        · rw [hfields3]
          intro kw hkw
          rcases List.mem_append.1 hkw with h | h
          · exact hwfCur.1 kw h
          · rw [List.mem_singleton.1 h]
            exact hvmLt
        · rw [hfields3, List.map_append]
          simp only [List.map_cons, List.map_nil]
          exact List.Nodup.append hwfCur.2 (List.nodup_singleton _)
            (by
              intro x hx hx2
              rw [List.mem_singleton.1 hx2] at hx
              exact hkcur hx)
      have hag3 : ∀ y, y ≠ outAddr →
          (stm.heap.set outAddr (curObj.withFields (curObj.fields ++ [(k, vm)])))[y]? =
          stm.heap[y]? :=
        fun y hy => List.getElem?_set_ne (Ne.symm hy)
      have hlen3 : (stm.heap.set outAddr (curObj.withFields (curObj.fields ++ [(k, vm)]))).length =
          stm.heap.length := List.length_set ..
      have hneBelow : ∀ y, y < ℓ₀ → y ≠ outAddr :=
        fun y hy => Nat.ne_of_lt (Nat.lt_of_lt_of_le hy houtGe)
      have hmemAm : a ∈ stm.tMap.inputs := by
        obtain ⟨t, ht⟩ := hFrm.htmIn
        rw [ht]
        exact List.mem_append_left _ hmemA
      have hgetAm : stm.tMap.get a = .ref outAddr := by
        rw [tmGet_mono hInv.htmLen hInvm.htmLen hFrm.htmIn hFrm.htmOut hmemA]
        exact hgetA
      have hzA : (a, (.ref outAddr : Val)) ∈ List.zip stm.tMap.inputs stm.tMap.outputs := by
        have h1 := mem_zip_lookupPar hmemAm hInvm.htmLen
        rw [← tmGet_eq_lookupPar _ hInvm.htmLen, hgetAm] at h1
        exact h1
      have hInv3 : Inv ℓ₀ (a :: A)
          ⟨stm.heap.set outAddr (curObj.withFields (curObj.fields ++ [(k, vm)])), stm.tMap⟩ := by
        refine ⟨?_, ?_, ?_, hInvm.htmLen, hInvm.htmNodup, hInvm.htmInLt, ?_,
          hInvm.htmOutNodup, hInvm.hopen, ?_⟩
        · rw [hlen3]
          exact hInvm.hle
        · exact heapWF_set hInvm.hwf hwfCur3
        · exact closedBelow_mono hInvm.hclosed (fun y hy => hag3 y (hneBelow y hy))
        · intro o ho
          obtain ⟨b, hb, h1, h2⟩ := hInvm.htmOutRange o ho
          exact ⟨b, hb, h1, by rw [hlen3]; exact h2⟩
        · intro x o hz hx
          have hxlt : x < ℓ₀ := hInvm.htmInLt x (List.of_mem_zip hz).1
          refine cohEntry_mono (hInvm.hcoh x o hz hx) hxlt hInvm.hclosed
            (fun y hy => hag3 y (hneBelow y hy)) ?_ hInvm.htmLen hInvm.htmLen
            ⟨[], by simp⟩ ⟨[], by simp⟩
          intro b hb
          refine hag3 b ?_
          intro hbe
          subst hbe
          rw [hb] at hz
          have := zip_right_nodup hz hzA hInvm.htmOutNodup
          rw [this] at hx
          exact hx (List.mem_cons_self a A)
      obtain ⟨hInv2, hFrC2, fsNew2, hfout2, hforall2⟩ :=
        ihColl ℓ₀ A a outAddr (curObj.withFields (curObj.fields ++ [(k, vm)])) rest
          ⟨stm.heap.set outAddr (curObj.withFields (curObj.fields ++ [(k, vm)])), stm.tMap⟩
          st2 hInv3 hmemAm hgetAm houtGe
          (List.getElem?_set_self houtLtm) (withFields_collLike hcl _)
          (by
            have := hnodup
            simp only [List.map_cons] at this
            exact (List.nodup_cons.1 this).2)
          (by
            intro k2 hk2 hk2mem
            rw [hfields3, List.map_append] at hk2mem
            rcases List.mem_append.1 hk2mem with h | h
            · exact hdisj k2 (by simp [hk2]) h
            · simp only [List.map_cons, List.map_nil, List.mem_singleton] at h
              subst h
              simp only [List.map_cons] at hnodup
              exact (List.nodup_cons.1 hnodup).1 hk2)
          (fun kw hkw => hvals kw (List.mem_cons_of_mem _ hkw))
          hok2
      have hlenEq3 : (⟨stm.heap.set outAddr (curObj.withFields (curObj.fields ++ [(k, vm)])),
          stm.tMap⟩ : St).heap.length = stm.heap.length := hlen3
      refine ⟨hInv2, ?_, (k, vm) :: fsNew2, ?_, ?_⟩
      · refine ⟨?_, ?_, ?_, ?_⟩
        · refine Nat.le_trans hFrm.hlen (Nat.le_trans (Nat.le_of_eq hlen3.symm) ?_)
          exact hFrC2.hlen
        · intro x hx hxne
          rw [hFrC2.hagree x (by rw [hlenEq3]; exact Nat.lt_of_lt_of_le hx hFrm.hlen) hxne,
            hag3 x hxne, hFrm.hagree x hx]
        · obtain ⟨t1, h1⟩ := hFrm.htmIn
          obtain ⟨t2, h2⟩ := hFrC2.htmIn
          exact ⟨t1 ++ t2, by rw [h2]; simp only []; rw [h1, List.append_assoc]⟩
        · obtain ⟨t1, h1⟩ := hFrm.htmOut
          obtain ⟨t2, h2⟩ := hFrC2.htmOut
          exact ⟨t1 ++ t2, by rw [h2]; simp only []; rw [h1, List.append_assoc]⟩
      · rw [hfout2, hfields3, withFields_withFields, List.append_assoc,
          List.singleton_append]
      · refine List.Forall₂.cons ⟨rfl, ?_⟩ hforall2
        have hstep1 : valRel
            (stm.heap.set outAddr (curObj.withFields (curObj.fields ++ [(k, vm)])))
            stm.tMap v vm :=
          valRel_mono hrelv hvalv (fun y hy => hag3 y (hneBelow y hy))
            hInvm.htmLen hInvm.htmLen ⟨[], by simp⟩ ⟨[], by simp⟩
        have hag2 : ∀ y, y < ℓ₀ → st2.heap[y]? =
            (stm.heap.set outAddr (curObj.withFields (curObj.fields ++ [(k, vm)])))[y]? := by
          intro y hy
          have hylt : y < stm.heap.length :=
            Nat.lt_of_lt_of_le hy (Nat.le_trans hInv.hle hFrm.hlen)
          exact hFrC2.hagree y (by rw [hlenEq3]; exact hylt) (hneBelow y hy)
        exact valRel_mono hstep1 hvalv hag2 hInv3.htmLen hInv2.htmLen
          hFrC2.htmIn hFrC2.htmOut

end Cyclone

namespace Cyclone

/-- The master invariant theorem for registry-empty runs of the cloning
engine, proved by induction on fuel. -/
theorem master (σ : FunTable) : ∀ fuel, MIS σ fuel ∧ MOBJ σ fuel ∧ MCOLL σ fuel := by
  intro fuel
  induction fuel with
  | zero =>
    refine ⟨?_, ?_, ?_⟩
    · intro ℓ₀ A v st v2 st2 _ _ hok
      cases hok
    · intro ℓ₀ A a st v2 st2 _ _ hok
      cases hok
    · intro ℓ₀ A a outAddr curObj fields st st2 _ _ _ _ _ _ _ _ _ hok
      cases hok
  | succ fuel ih =>
    obtain ⟨ihIS, ihOBJ, ihCOLL⟩ := ih
    exact ⟨step_iS σ fuel ihOBJ, step_obj σ fuel ihCOLL, step_coll σ fuel ihIS ihCOLL⟩

/-- The invariant at the start of a top-level clone call on a well-formed
heap. -/
theorem inv_initial {heap : Heap} (hwf : HeapWF heap) :
    Inv heap.length [] ⟨heap, TransferMap.empty⟩ := by
  refine ⟨Nat.le_refl _, hwf, closedBelow_of_heapWF hwf, rfl, List.nodup_nil, ?_, ?_,
    List.nodup_nil, ?_, ?_⟩
  · intro x hx
    cases hx
  · intro o ho
    cases ho
  · intro x hx
    cases hx
  · intro x o hz _
    cases hz

/-- In a pointwise-related field list with distinct keys, the output member
at key `k` is the related counterpart of the input member at `k`. -/
theorem forall2_lookup {H : Heap} {tm : TransferMap} {fsI fsO : List (String × Val)}
    {k : String} {w : Val}
    (hf : List.Forall₂ (fieldRel H tm) fsI fsO)
    (hmem : (k, w) ∈ fsI) (hnd : (fsI.map Prod.fst).Nodup) :
    ∃ w2, fsO.lookup k = some w2 ∧ valRel H tm w w2 := by
  induction hf with
  | nil => cases hmem
  | @cons kwI kwO restI restO hr hrest ih =>
    rcases List.mem_cons.1 hmem with h | h
    · subst h
      refine ⟨kwO.2, ?_, hr.2⟩
      have hk : kwO.1 = k := hr.1
      obtain ⟨k2, w2⟩ := kwO
      simp only at hk
      subst hk
      simp [List.lookup]
    · have hkne : kwI.1 ≠ k := by
        intro he
        have hin : k ∈ restI.map Prod.fst :=
          List.mem_map_of_mem Prod.fst h
      
        simp only [List.map_cons, List.nodup_cons] at hnd
        exact hnd.1 (he ▸ hin)
      have hkO : kwO.1 ≠ k := by
        rw [hr.1]
        exact hkne
      obtain ⟨w2, h1, h2⟩ := ih h (by
        simp only [List.map_cons, List.nodup_cons] at hnd
        exact hnd.2)
      refine ⟨w2, ?_, h2⟩
      obtain ⟨k2, v2⟩ := kwO
      simp only at hkO
      have hbeq : (k == k2) = false := by
        simp only [beq_eq_false_iff_ne, ne_eq]
        exact fun e => hkO e.symm
      simp only [List.lookup, hbeq]
      exact h1

/-- Claim C2: for a record whose member `self` references the record
itself, the default clone (empty registry) yields an output `c` whose
`self` member is `c` itself, and `c` is not the original record: reading
`self` off the clone gives back exactly the clone reference. -/
theorem claim_C2 (σ : FunTable) (fuel : Nat) (heap : Heap) (a proto : Nat)
    (fs : List (String × Val)) (c : Val) (st2 : St)
    (hwf : HeapWF heap)
    (hheap : heap[a]? = some (.plain proto fs))
    (hself : ("self", Val.ref a) ∈ fs)
    (hok : CY.clone σ [] fuel (.ref a) heap = .ok (c, st2)) :
    jsGetProp st2.heap c "self" = .ok c ∧ c ≠ .ref a := by
  have haLt : a < heap.length := getElem?_some_lt hheap
  obtain ⟨hInv2, hFr, hrel⟩ :=
    (master σ fuel).1 heap.length [] (.ref a) ⟨heap, TransferMap.empty⟩ c st2
      (inv_initial hwf) haLt hok
  have hIa : st2.heap[a]? = some (.plain proto fs) := by
    rw [hFr.hagree a haLt]
    exact hheap
  rcases hrel with ⟨p, hp, _⟩ | ⟨s, hs, hf, _⟩ | ⟨s, hs, hmem2, hc⟩
  · cases hp
  · injection hs with hs
    subst hs
    obtain ⟨id, fsf, hff⟩ := hf
    rw [hIa] at hff
    cases hff
  · injection hs with hs
    subst hs
    have hz : (a, c) ∈ List.zip st2.tMap.inputs st2.tMap.outputs := by
      have h1 := mem_zip_lookupPar hmem2 hInv2.htmLen
      rw [← tmGet_eq_lookupPar _ hInv2.htmLen, ← hc] at h1
      exact h1
    obtain ⟨b, objI, objO, hcb, hIa2, hOb, hrelO⟩ :=
      hInv2.hcoh a c hz (List.not_mem_nil a)
    rw [hIa] at hIa2
    injection hIa2 with hIa2
    subst hIa2
    cases hrelO with
    | plain pr fsI fsO hforall =>
      have hnd : (fs.map Prod.fst).Nodup := by
        have h1 := hwf a haLt
        have h2 : heap[a] = Obj.plain proto fs := by
          rw [List.getElem?_eq_getElem haLt] at hheap
          injection hheap
        rw [h2] at h1
        exact h1.2
      obtain ⟨w2, hlook, hrelw⟩ := forall2_lookup hforall hself hnd
      have hw2 : w2 = c := by
        rcases hrelw with ⟨p, hp, _⟩ | ⟨s2, hs2, hf2, _⟩ | ⟨s2, hs2, _, hw⟩
        · cases hp
        · injection hs2 with hs2
          subst hs2
          obtain ⟨id, fsf, hff⟩ := hf2
          rw [hIa] at hff
          cases hff
        · injection hs2 with hs2
          subst hs2
          rw [hw, hc]
      have hbne : b ≠ a := by
        obtain ⟨b2, hb2, hge, _⟩ := hInv2.htmOutRange c ((List.of_mem_zip hz).2)
        rw [hcb] at hb2
        injection hb2 with hb2
        subst hb2
        omega
      constructor
      · rw [hcb]
        simp only [jsGetProp, hOb]
        rw [show (Obj.plain proto fsO).getFieldD "self" = w2 by
          simp [Obj.getFieldD, Obj.fields, hlook]]
        rw [hw2, hcb]
      · rw [hcb]
        intro he
        injection he with he
        exact hbne he

/-- Claim C2, witness: the self-referential one-field record. -/
theorem claim_C2_witness :
    jsGetProp [Obj.plain 0 [("self", .ref 0)], Obj.plain 0 [("self", .ref 1)]]
      (.ref 1) "self" = .ok (.ref 1) ∧ (Val.ref 1) ≠ .ref 0 :=
  claim_C2 σ0 5 [.plain 0 [("self", .ref 0)]] 0 0 [("self", .ref 0)] (.ref 1)
    ⟨[.plain 0 [("self", .ref 0)], .plain 0 [("self", .ref 1)]], ⟨[0], [.ref 1]⟩⟩
    (by decide) (by decide) (by decide) (by decide)

/-- Claim C3: when two members of a record reference the same non-callable
object, the default clone has both members referencing one shared clone:
the two member reads agree, the shared member is not the original object,
and it is a real value (not `undefined`). -/
theorem claim_C3 (σ : FunTable) (fuel : Nat) (heap : Heap) (a proto s : Nat)
    (fs : List (String × Val)) (kx ky : String) (objS : Obj) (c : Val) (st2 : St)
    (hwf : HeapWF heap)
    (hheap : heap[a]? = some (.plain proto fs))
    (hx : (kx, Val.ref s) ∈ fs) (hy : (ky, Val.ref s) ∈ fs)
    (hS : heap[s]? = some objS) (hSnf : ∀ id fsf, objS ≠ .funcObj id fsf)
    (hok : CY.clone σ [] fuel (.ref a) heap = .ok (c, st2)) :
    jsGetProp st2.heap c kx = jsGetProp st2.heap c ky ∧
    jsGetProp st2.heap c kx ≠ .ok (.ref s) ∧
    jsGetProp st2.heap c kx ≠ .ok (.prim .vUndefined) := by
  have haLt : a < heap.length := getElem?_some_lt hheap
  have hsLt : s < heap.length := getElem?_some_lt hS
  obtain ⟨hInv2, hFr, hrel⟩ :=
    (master σ fuel).1 heap.length [] (.ref a) ⟨heap, TransferMap.empty⟩ c st2
      (inv_initial hwf) haLt hok
  have hIa : st2.heap[a]? = some (.plain proto fs) := by
    rw [hFr.hagree a haLt]
    exact hheap
  have hIs : st2.heap[s]? = some objS := by
    rw [hFr.hagree s hsLt]
    exact hS
  rcases hrel with ⟨p, hp, _⟩ | ⟨s2, hs2, hf2, _⟩ | ⟨s2, hs2, hmem2, hc⟩
  · cases hp
  · injection hs2 with hs2
    subst hs2
    obtain ⟨id, fsf, hff⟩ := hf2
    rw [hIa] at hff
    cases hff
  · injection hs2 with hs2
    subst hs2
    have hz : (a, c) ∈ List.zip st2.tMap.inputs st2.tMap.outputs := by
      have h1 := mem_zip_lookupPar hmem2 hInv2.htmLen
      rw [← tmGet_eq_lookupPar _ hInv2.htmLen, ← hc] at h1
      exact h1
    obtain ⟨b, objI, objO, hcb, hIa2, hOb, hrelO⟩ :=
      hInv2.hcoh a c hz (List.not_mem_nil a)
    rw [hIa] at hIa2
    injection hIa2 with hIa2
    subst hIa2
    cases hrelO with
    | plain pr fsI fsO hforall =>
      have hnd : (fs.map Prod.fst).Nodup := by
        have h1 := hwf a haLt
        have h2 : heap[a] = Obj.plain proto fs := by
          rw [List.getElem?_eq_getElem haLt] at hheap
          injection hheap
        rw [h2] at h1
        exact h1.2
      have hval : ∀ w2, valRel st2.heap st2.tMap (.ref s) w2 →
          w2 = st2.tMap.get s ∧ s ∈ st2.tMap.inputs := by
        intro w2 hrelw
        rcases hrelw with ⟨p, hp, _⟩ | ⟨s2, hs2, hf2, _⟩ | ⟨s2, hs2, hmem3, hw⟩
        · cases hp
        · injection hs2 with hs2
          subst hs2
          obtain ⟨id, fsf, hff⟩ := hf2
          rw [hIs] at hff
          injection hff with hff
          exact absurd hff (hSnf id fsf)
        · injection hs2 with hs2
          subst hs2
          exact ⟨hw, hmem3⟩
      obtain ⟨wx, hlookx, hrelx⟩ := forall2_lookup hforall hx hnd
      obtain ⟨wy, hlooky, hrely⟩ := forall2_lookup hforall hy hnd
      obtain ⟨hwx, hmemS⟩ := hval wx hrelx
      obtain ⟨hwy, _⟩ := hval wy hrely
      have hgx : jsGetProp st2.heap c kx = .ok wx := by
        rw [hcb]
        simp only [jsGetProp, hOb]
        rw [show (Obj.plain proto fsO).getFieldD kx = wx by
          simp [Obj.getFieldD, Obj.fields, hlookx]]
      have hgy : jsGetProp st2.heap c ky = .ok wy := by
        rw [hcb]
        simp only [jsGetProp, hOb]
        rw [show (Obj.plain proto fsO).getFieldD ky = wy by
          simp [Obj.getFieldD, Obj.fields, hlooky]]
      obtain ⟨t, ht, htge, _⟩ :=
        hInv2.htmOutRange (st2.tMap.get s) (tmGet_mem_outputs hInv2.htmLen hmemS)
      refine ⟨?_, ?_, ?_⟩
      · rw [hgx, hgy, hwx, hwy]
      · rw [hgx, hwx, ht]
        intro he
        injection he with he
        injection he with he
        omega
      · rw [hgx, hwx, ht]
        intro he
        injection he with he
        cases he

/-- Claim C3, witness: the record `{x: shared, y: shared}`. -/
theorem claim_C3_witness :
    jsGetProp [Obj.plain 0 [], Obj.plain 0 [("x", .ref 0), ("y", .ref 0)],
        Obj.plain 0 [("x", .ref 3), ("y", .ref 3)], Obj.plain 0 []]
      (.ref 2) "x" =
      jsGetProp [Obj.plain 0 [], Obj.plain 0 [("x", .ref 0), ("y", .ref 0)],
        Obj.plain 0 [("x", .ref 3), ("y", .ref 3)], Obj.plain 0 []]
      (.ref 2) "y" ∧
    jsGetProp [Obj.plain 0 [], Obj.plain 0 [("x", .ref 0), ("y", .ref 0)],
        Obj.plain 0 [("x", .ref 3), ("y", .ref 3)], Obj.plain 0 []]
      (.ref 2) "x" ≠ .ok (.ref 0) ∧
    jsGetProp [Obj.plain 0 [], Obj.plain 0 [("x", .ref 0), ("y", .ref 0)],
        Obj.plain 0 [("x", .ref 3), ("y", .ref 3)], Obj.plain 0 []]
      (.ref 2) "x" ≠ .ok (.prim .vUndefined) :=
  claim_C3 σ0 8 [.plain 0 [], .plain 0 [("x", .ref 0), ("y", .ref 0)]] 1 0 0
    [("x", .ref 0), ("y", .ref 0)] "x" "y" (.plain 0 []) (.ref 2)
    ⟨[.plain 0 [], .plain 0 [("x", .ref 0), ("y", .ref 0)],
      .plain 0 [("x", .ref 3), ("y", .ref 3)], .plain 0 []], ⟨[1, 0], [.ref 2, .ref 3]⟩⟩
    (by decide) (by decide) (by decide) (by decide) (by decide)
    (by intro id fsf h; cases h) (by decide)

end Cyclone

namespace Cyclone

/-- Depth-truncated unfolding of a heap value, the notion of structural
equality used for claim C9: two values are structurally equal when all
their finite truncations agree (this captures member-for-member equality
and cyclic structure; callables compare by reference, as `===` would). The
first argument of the truncation is a joint depth-and-width fuel. -/
inductive Tree where
  | cut
  | danglingT
  | primT (p : Prim)
  | boxedStringT (s : String)
  | boxedNumberT (n : Int)
  | boxedBooleanT (b : Bool)
  | dateT (t : Int)
  | regexpT (source : String) (g ic ml oth : Bool)
  | funcRefT (a : Nat)
  | htmlT (name : String) (data : Nat) (cc : Bool)
  | exoticT (tag : String)
  | arrT (len : Nat) (fields : List (String × Tree))
  | plainT (proto : Nat) (fields : List (String × Tree))

mutual

def truncV (H : Heap) : Nat → Val → Tree
  | 0, _ => .cut
  | _ + 1, .prim p => .primT p
  | d + 1, .ref a =>
    match H[a]? with
    | none => .danglingT
    | some (.boxedString s) => .boxedStringT s
    | some (.boxedNumber n) => .boxedNumberT n
    | some (.boxedBoolean b) => .boxedBooleanT b
    | some (.date t) => .dateT t
    | some (.regexp src g ic ml oth) => .regexpT src g ic ml oth
    | some (.funcObj _ _) => .funcRefT a
    | some (.html name data cc) => .htmlT name data cc
    | some (.exotic tag) => .exoticT tag
    | some (.arr len fs) => .arrT len (truncFields H d fs)
    | some (.plain pr fs) => .plainT pr (truncFields H d fs)

def truncFields (H : Heap) : Nat → List (String × Val) → List (String × Tree)
  | 0, _ => []
  | _ + 1, [] => []
  | d + 1, (k, v) :: rest => (k, truncV H d v) :: truncFields H d rest

end

mutual

/-- Normalization on truncation trees: exactly the flag-dropping a clone
applies to regexps.  A clone output is a fixed point of this map, and
cloning maps every tree to its normalization. -/
def normTree : Tree → Tree
  | .regexpT src g ic ml _ => .regexpT src g ic ml false
  | .arrT len fs => .arrT len (normFields fs)
  | .plainT pr fs => .plainT pr (normFields fs)
  | t => t

def normFields : List (String × Tree) → List (String × Tree)
  | [] => []
  | (k, t) :: rest => (k, normTree t) :: normFields rest

end

end Cyclone

namespace Cyclone

/-- Truncation only depends on the part of the heap reachable below a
closed bound. -/
theorem trunc_agree {H H2 : Heap} {n : Nat}
    (hag : ∀ u, u < n → H2[u]? = H[u]?) (hcl : ClosedBelow n H) :
    ∀ d, (∀ v, ValRefsLt n v → truncV H2 d v = truncV H d v) ∧
      (∀ fs, (∀ kw ∈ fs, ValRefsLt n kw.2) →
        truncFields H2 d fs = truncFields H d fs) := by
  intro d
  induction d with
  | zero => exact ⟨fun v _ => rfl, fun fs _ => rfl⟩
  | succ d ih =>
    constructor
    · intro v hv
      cases v with
      | prim p => rfl
      | ref a =>
        have haLt : a < n := hv
        simp only [truncV]
        rw [hag a haLt]
        rcases ho : H[a]? with _ | obj
        · rfl
        · cases obj with
          | arr len fs =>
            simp only []
            rw [ih.2 fs (hcl a haLt _ ho)]
          | plain pr fs =>
            simp only []
            rw [ih.2 fs (hcl a haLt _ ho)]
          | boxedString s => rfl
          | boxedNumber n2 => rfl
          | boxedBoolean b => rfl
          | date t => rfl
          | regexp src g ic ml oth => rfl
          | funcObj id fs => rfl
          | html name data cc => rfl
          | exotic tag => rfl
    · intro fs hfs
      cases fs with
      | nil => rfl
      | cons kv rest =>
        obtain ⟨k, v⟩ := kv
        simp only [truncFields]
        rw [ih.1 v (hfs (k, v) (List.mem_cons_self _ _)),
          ih.2 rest (fun kw hkw => hfs kw (List.mem_cons_of_mem _ hkw))]

/-- Core of claim C9: in the coherent final state of a registry-empty
clone, the truncation of a cloned value is the normalization of the
truncation of its original. -/
theorem trunc_correspond {ℓ₀ : Nat} {st : St} (hInv : Inv ℓ₀ [] st) :
    ∀ d, (∀ v v2, valRel st.heap st.tMap v v2 →
        truncV st.heap d v2 = normTree (truncV st.heap d v)) ∧
      (∀ fsI fsO, List.Forall₂ (fieldRel st.heap st.tMap) fsI fsO →
        truncFields st.heap d fsO = normFields (truncFields st.heap d fsI)) := by
  intro d
  induction d with
  | zero =>
    refine ⟨fun v v2 _ => ?_, fun fsI fsO _ => ?_⟩
    · simp [truncV, normTree]
    · simp [truncFields, normFields]
  | succ d ih =>
    constructor
    · intro v v2 hrel
      rcases hrel with ⟨p, rfl, rfl⟩ | ⟨s, rfl, hf, rfl⟩ | ⟨s, rfl, hmem, rfl⟩
      · simp [truncV, normTree]
      · obtain ⟨id, fs, hff⟩ := hf
        simp [truncV, hff, normTree]
      · have hz : (s, st.tMap.get s) ∈ List.zip st.tMap.inputs st.tMap.outputs := by
          have h1 := mem_zip_lookupPar hmem hInv.htmLen
          rw [← tmGet_eq_lookupPar _ hInv.htmLen] at h1
          exact h1
        obtain ⟨b, objI, objO, hgb, hIs, hOb, hrelO⟩ :=
          hInv.hcoh s _ hz (List.not_mem_nil s)
        rw [hgb]
        cases hrelO with
        | boxedString s0 => simp [truncV, hIs, hOb, normTree]
        | boxedNumber n0 => simp [truncV, hIs, hOb, normTree]
        | boxedBoolean b0 => simp [truncV, hIs, hOb, normTree]
        | date t0 => simp [truncV, hIs, hOb, normTree]
        | regexp src g ic ml oth => simp [truncV, hIs, hOb, normTree]
        | html name data cc => simp [truncV, hIs, hOb, normTree]
        | arr len fsI fsO hforall =>
          simp only [truncV, hIs, hOb, normTree]
          exact congrArg (Tree.arrT len) (ih.2 fsI fsO hforall)
        | plain pr fsI fsO hforall =>
          simp only [truncV, hIs, hOb, normTree]
          exact congrArg (Tree.plainT pr) (ih.2 fsI fsO hforall)
    · intro fsI fsO hforall
      cases hforall with
      | nil => simp [truncFields, normFields]
      | @cons kwI kwO restI restO hr hrest =>
        obtain ⟨kI, vI⟩ := kwI
        obtain ⟨kO, vO⟩ := kwO
        have hk : kO = kI := hr.1
        subst hk
        simp only [truncFields, normFields]
        rw [ih.1 vI vO hr.2, ih.2 restI restO hrest]

/-- Clone outputs are normal: their truncations are fixed points of the
normalization. -/
theorem trunc_norm_fixed {ℓ₀ : Nat} {st : St} (hInv : Inv ℓ₀ [] st) :
    ∀ d, (∀ v v2, valRel st.heap st.tMap v v2 →
        normTree (truncV st.heap d v2) = truncV st.heap d v2) ∧
      (∀ fsI fsO, List.Forall₂ (fieldRel st.heap st.tMap) fsI fsO →
        normFields (truncFields st.heap d fsO) = truncFields st.heap d fsO) := by
  intro d
  induction d with
  | zero =>
    refine ⟨fun v v2 _ => ?_, fun fsI fsO _ => ?_⟩
    · simp [truncV, normTree]
    · simp [truncFields, normFields]
  | succ d ih =>
    constructor
    · intro v v2 hrel
      rcases hrel with ⟨p, rfl, rfl⟩ | ⟨s, rfl, hf, rfl⟩ | ⟨s, rfl, hmem, rfl⟩
      · simp [truncV, normTree]
      · obtain ⟨id, fs, hff⟩ := hf
        simp [truncV, hff, normTree]
      · have hz : (s, st.tMap.get s) ∈ List.zip st.tMap.inputs st.tMap.outputs := by
          have h1 := mem_zip_lookupPar hmem hInv.htmLen
          rw [← tmGet_eq_lookupPar _ hInv.htmLen] at h1
          exact h1
        obtain ⟨b, objI, objO, hgb, hIs, hOb, hrelO⟩ :=
          hInv.hcoh s _ hz (List.not_mem_nil s)
        rw [hgb]
        cases hrelO with
        | boxedString s0 => simp [truncV, hOb, normTree]
        | boxedNumber n0 => simp [truncV, hOb, normTree]
        | boxedBoolean b0 => simp [truncV, hOb, normTree]
        | date t0 => simp [truncV, hOb, normTree]
        | regexp src g ic ml oth => simp [truncV, hOb, normTree]
        | html name data cc => simp [truncV, hOb, normTree]
        | arr len fsI fsO hforall =>
          simp only [truncV, hOb, normTree]
          exact congrArg (Tree.arrT len) (ih.2 fsI fsO hforall)
        | plain pr fsI fsO hforall =>
          simp only [truncV, hOb, normTree]
          exact congrArg (Tree.plainT pr) (ih.2 fsI fsO hforall)
    · intro fsI fsO hforall
      cases hforall with
      | nil => simp [truncFields, normFields]
      | @cons kwI kwO restI restO hr hrest =>
        obtain ⟨kI, vI⟩ := kwI
        obtain ⟨kO, vO⟩ := kwO
        simp only [truncFields, normFields]
        rw [ih.1 vI vO hr.2]
        rw [ih.2 restI restO hrest]

end Cyclone

namespace Cyclone

/-- Claim C9: idempotence of the clone value, with the registry empty (the
default configuration — custom procedures replace the built-in behaviour
entirely and can produce arbitrary copies).  When `clone` succeeds on `x`
producing `y`, and cloning `y` succeeds producing `z`, then `z` is
structurally equal to `y`: every finite truncation of the two value graphs
agrees, which covers member-for-member equality as well as preserved
cyclic and shared-reference structure. -/
theorem claim_C9 (σ σ2 : FunTable) (f1 f2 : Nat) (heap : Heap) (x y z : Val)
    (st1 st2 : St)
    (hwf : HeapWF heap) (hx : ValRefsLt heap.length x)
    (h1 : CY.clone σ [] f1 x heap = .ok (y, st1))
    (h2 : CY.clone σ2 [] f2 y st1.heap = .ok (z, st2)) :
    ∀ d, truncV st2.heap d z = truncV st2.heap d y := by
  obtain ⟨hInv1, hFr1, hrel1⟩ :=
    (master σ f1).1 heap.length [] x ⟨heap, TransferMap.empty⟩ y st1 (inv_initial hwf) hx h1
  have hy : ValRefsLt st1.heap.length y :=
    valRel_refsLt hrel1
      (fun o ho => by
        obtain ⟨b, hb, _, h2b⟩ := hInv1.htmOutRange o ho
        exact ⟨b, hb, h2b⟩)
      hInv1.htmLen
  obtain ⟨hInv2, hFr2, hrel2⟩ :=
    (master σ2 f2).1 st1.heap.length [] y ⟨st1.heap, TransferMap.empty⟩ z st2
      (inv_initial hInv1.hwf) hy h2
  intro d
  have hc : truncV st2.heap d z = normTree (truncV st2.heap d y) :=
    (trunc_correspond hInv2 d).1 y z hrel2
  have hstable : truncV st2.heap d y = truncV st1.heap d y :=
    (trunc_agree hFr2.hagree (closedBelow_of_heapWF hInv1.hwf) d).1 y hy
  have hfix : normTree (truncV st1.heap d y) = truncV st1.heap d y :=
    (trunc_norm_fixed hInv1 d).1 x y hrel1
  rw [hc, hstable, hfix]

/-- Claim C9, witness: double-cloning the self-referential record; the
depth-3 truncations of the second clone and the first clone coincide. -/
theorem claim_C9_witness :
    truncV [Obj.plain 0 [("self", .ref 0)], Obj.plain 0 [("self", .ref 1)],
      Obj.plain 0 [("self", .ref 2)]] 3 (.ref 2) =
    truncV [Obj.plain 0 [("self", .ref 0)], Obj.plain 0 [("self", .ref 1)],
      Obj.plain 0 [("self", .ref 2)]] 3 (.ref 1) :=
  claim_C9 σ0 σ0 6 6 [.plain 0 [("self", .ref 0)]] (.ref 0) (.ref 1) (.ref 2)
    ⟨[.plain 0 [("self", .ref 0)], .plain 0 [("self", .ref 1)]], ⟨[0], [.ref 1]⟩⟩
    ⟨[.plain 0 [("self", .ref 0)], .plain 0 [("self", .ref 1)],
      .plain 0 [("self", .ref 2)]], ⟨[1], [.ref 2]⟩⟩
    (by decide) (by decide) (by decide) (by decide) 3

end Cyclone
